import Mathlib

/-!
Verification of the Workspace Session Gateway core of this repository.

The development shallowly embeds the relevant program parts:

* `JsMap` — JavaScript object / `Map` semantics (string-keyed finite maps
  with insertion order), used by every stateful component.
* `Pty` — the `TerminalManager` class of `pty.ts` (`createPty`, `write`,
  `clear`, and the `exit`-event handler).
* `Gw` — the socket handlers of `index.ts` (`updateContent`,
  `fetchContent`) together with `saveFile` of `fs.ts` and `saveToS3` of
  `aws.ts`.
* `Merge` — the `onSelect` directory-merge logic of `CodingPage.tsx`.
* `Aws` — `copyS3Folder` of `aws.ts` over a paginated object store.
* `FM` — `buildFileTree` and `findFileByName` of `file-manager.tsx`.

Asynchronous effects are modelled by explicit state passing; a rejected
promise is modelled as an `Except.error` that propagates exactly where the
code has no `try`/`catch`.
-/

instance {ε α : Type} [DecidableEq ε] [DecidableEq α] : DecidableEq (Except ε α) :=
  fun a b =>
    match a, b with
    | .ok x, .ok y =>
      if h : x = y then .isTrue (by rw [h])
      else .isFalse (fun hc => h (Except.ok.inj hc))
    | .ok _, .error _ => .isFalse (fun hc => Except.noConfusion hc)
    | .error _, .ok _ => .isFalse (fun hc => Except.noConfusion hc)
    | .error e, .error f =>
      if h : e = f then .isTrue (by rw [h])
      else .isFalse (fun hc => h (Except.error.inj hc))

namespace JsMap

/-- `obj[k] = v` on a JavaScript object / `Map.set`: updates the value in
place when the key exists (keeping its position), otherwise appends. -/
def objSet {α : Type} : List (String × α) → String → α → List (String × α)
  | [], k, v => [(k, v)]
  | (k', v') :: rest, k, v =>
    if k' = k then (k, v) :: rest else (k', v') :: objSet rest k v

/-- Property read `obj[k]` / `Map.get`: first binding for the key. -/
def objGet {α : Type} : List (String × α) → String → Option α
  | [], _ => none
  | (k', v') :: rest, k => if k' = k then some v' else objGet rest k

/-- `delete obj[k]`: removes the key entirely. -/
def objDelete {α : Type} (m : List (String × α)) (k : String) : List (String × α) :=
  m.filter (fun kv => kv.1 ≠ k)

end JsMap

namespace Pty

open JsMap

/-- A stored terminal session: the pty handle (identified by its pid) and
the associated repl id, as in `sessions[id] = { terminal, replId }`. -/
structure Session where
  pid : Nat
  replId : String
deriving DecidableEq, Repr

/-- State of a `TerminalManager` together with the OS-level facts the class
manipulates: the `sessions` object (keyed by socket id), the set of live
shell processes, and a counter supplying fresh pids for `fork`. -/
structure TMState where
  sessions : List (String × Session)
  liveProcs : List Nat
  nextPid : Nat
deriving DecidableEq, Repr

/-- `createPty(id, replId, onData)`: forks a fresh shell process, stores
`sessions[id] = { terminal: term, replId }` (overwriting any previous
session for `id` without killing its process), and returns the new pid.
The `data` handler registration has no effect on this state. -/
def createPty (st : TMState) (id replId : String) : TMState × Nat :=
  let pid := st.nextPid
  ({ sessions := objSet st.sessions id ⟨pid, replId⟩,
     liveProcs := st.liveProcs ++ [pid],
     nextPid := pid + 1 }, pid)

/-- The `exit` event of the process with pid `pid`: the process dies, and
the registered handler runs `delete this.sessions[term.pid]` — the key it
deletes is the pid rendered as a string, not the session id. -/
def processExit (st : TMState) (pid : Nat) : TMState :=
  { st with
    liveProcs := st.liveProcs.erase pid,
    sessions := objDelete st.sessions (toString pid) }

/-- `write(terminalId, data)`: `this.sessions[terminalId]?.terminal.write(data)`.
Returns the unchanged state and the pty write performed, if any. -/
def write (st : TMState) (terminalId data : String) :
    TMState × Option (Nat × String) :=
  match objGet st.sessions terminalId with
  | some s => (st, some (s.pid, data))
  | none => (st, none)

/-- `clear(terminalId)`: `this.sessions[terminalId]?.terminal.kill()` then
`delete this.sessions[terminalId]`. -/
def clear (st : TMState) (terminalId : String) : TMState :=
  match objGet st.sessions terminalId with
  | some s =>
    { st with
      liveProcs := st.liveProcs.erase s.pid,
      sessions := objDelete st.sessions terminalId }
  | none => { st with sessions := objDelete st.sessions terminalId }

/-- A process that is alive but referenced by no session entry. -/
def isOrphan (st : TMState) (pid : Nat) : Bool :=
  st.liveProcs.contains pid && st.sessions.all (fun kv => kv.2.pid ≠ pid)

/-- Reachable-state invariant: the `sessions` object has one binding per
key (JavaScript objects cannot hold duplicate keys), and every stored
session pid was produced by an earlier fork, hence is below the fresh-pid
counter. -/
def WF (st : TMState) : Prop :=
  (st.sessions.map Prod.fst).Nodup ∧ ∀ kv ∈ st.sessions, kv.2.pid < st.nextPid

end Pty

namespace Gw

open JsMap

/-- Connection-visible state: the local filesystem mirror (full path to
content), the durable store (key to content), and the lines written by
`console.error` in the two handlers under study (there are none). -/
structure GwState where
  mirror : List (String × String)
  s3 : List (String × String)
  log : List String
deriving DecidableEq, Repr

/-- One observable step of the `updateContent` handler, in order. -/
inductive Op where
  | localWrite (path content : String)
  | s3Put (key content : String)
deriving DecidableEq, Repr

/-- `saveFile(file, content)` of `fs.ts`: `fs.writeFile` on the local
mirror.  The claims under study condition on the local write succeeding,
so the filesystem error path is not modelled. -/
def saveFile (st : GwState) (file content : String) : GwState :=
  { st with mirror := objSet st.mirror file content }

/-- `saveToS3(key, filePath, content)` of `aws.ts`: a single
`s3.putObject` with `Key` equal to `key ++ filePath`, awaited with no
`try`/`catch` and no logging.  `s3Fails` says whether the put promise
rejects (a transient store fault); on rejection the error propagates to
the caller and the store is unchanged. -/
def saveToS3 (s3Fails : Bool) (st : GwState) (key filePath content : String) :
    Except String GwState :=
  if s3Fails then .error "putObject failed"
  else .ok { st with s3 := objSet st.s3 (key ++ filePath) content }

/-- The `updateContent` socket handler of `index.ts`:
`await saveFile("/workspace/" + filePath, content)` then
`await saveToS3("code/" + replId, filePath, content)`.  There is no
`try`/`catch`, so a rejected put leaves the handler as an unhandled
rejection.  Returns the resulting state, the handler outcome, and the
ordered trace of operations attempted. -/
def updateContent (s3Fails : Bool) (replId : String) (st : GwState)
    (filePath content : String) : GwState × Except String Unit × List Op :=
  let fullPath := "/workspace/" ++ filePath
  let st1 := saveFile st fullPath content
  let trace := [Op.localWrite fullPath content,
                Op.s3Put ("code/" ++ replId ++ filePath) content]
  match saveToS3 s3Fails st1 ("code/" ++ replId) filePath content with
  | .ok st2 => (st2, .ok (), trace)
  | .error e => (st1, .error e, trace)

/-- The `fetchContent` socket handler of `index.ts`:
`fetchFileContent("/workspace/" + filePath)`, a plain `fs.readFile` from
the mirror (`none` models the rejected promise for a missing file). -/
def fetchContent (st : GwState) (filePath : String) : Option String :=
  objGet st.mirror ("/workspace/" ++ filePath)

end Gw

namespace FM

/-- The `type` field of a `RemoteFile`: `"file" | "dir"`. -/
inductive RKind where
  | file
  | dir
deriving DecidableEq, Repr

/-- `RemoteFile` of `file-manager.tsx`. -/
structure RemoteFile where
  type : RKind
  name : String
  path : String
deriving DecidableEq, Repr

end FM

namespace Merge

open FM

/-- `Array.prototype.findIndex`: index of the first element satisfying
the callback, `none` when there is none. -/
def jsFindIndex {α : Type} (p : α → Bool) : List α → Option Nat
  | [] => none
  | a :: as => if p a then some 0 else (jsFindIndex p as).map (· + 1)

/-- The state update applied by `onSelect` in `CodingPage.tsx` when a
`fetchDir` callback returns `data` for accumulated entries `prev`:
`allFiles = [...prev, ...data]` filtered to elements whose index equals
`findIndex` of the first element with the same `path`. -/
def onSelectMerge (prev data : List RemoteFile) : List RemoteFile :=
  let allFiles := prev ++ data
  (allFiles.enum.filter
    (fun p => jsFindIndex (fun g => g.path == p.2.path) allFiles = some p.1)).map
    Prod.snd

end Merge

namespace Aws

open JsMap

/-- The object store: an association of keys to object bodies.  Real S3
holds at most one object per key; `copyS3Folder` is verified for stores
whose key list is duplicate-free. -/
abbrev S3 := List (String × String)

/-- Whether `p` is a leading substring of `s` (S3 key-prefix filtering). -/
def strStarts (p s : String) : Bool :=
  p.data.isPrefixOf s.data

/-- The keys `listObjectsV2` enumerates for a given `Prefix` parameter. -/
def listKeys (st : S3) (sp : String) : List String :=
  (st.map Prod.fst).filter (fun k => strStarts sp k)

/-- `String.prototype.replace` with a string pattern: replaces the first
occurrence of `pat` (only) with `rep`. -/
def replFirst (pat rep : List Char) : List Char → List Char
  | [] => if pat = [] then rep else []
  | c :: cs =>
    if pat.isPrefixOf (c :: cs) then rep ++ (c :: cs).drop pat.length
    else c :: replFirst pat rep cs

/-- `key.replace(sourcePrefix, destinationPrefix)` on the listed key. -/
def jsReplace (s pat rep : String) : String :=
  ⟨replFirst pat.data rep.data s.data⟩

/-- `s3.copyObject`: writes the body stored at `srcKey` to `dstKey`
(overwrite semantics).  Every key this is applied to was just listed, so
the source object exists; a missing source is modelled as a no-op. -/
def copyObject (st : S3) (srcKey dstKey : String) : S3 :=
  match objGet st srcKey with
  | some v => objSet st dstKey v
  | none => st

/-- One page of the copy loop: each listed object is copied to
`object.Key.replace(sourcePrefix, destinationPrefix)`.  The source issues
the copies in chunks of bounded concurrency; the store effect is the same
as performing them in listing order. -/
def copyPage (st : S3) (sp dp : String) (keys : List String) : S3 :=
  keys.foldl (fun s k => copyObject s k (jsReplace k sp dp)) st

/-- Outcome of a `copyS3Folder` call: the settled promise, the resulting
store, and how many `listObjectsV2` pages the call consumed. -/
structure CopyOut where
  result : Except String Unit
  store : S3
  pages : Nat
deriving DecidableEq, Repr

/-- The `catch` wrapper at the bottom of `copyS3Folder`: any error thrown
inside the `try` (including one thrown by the recursive pagination call)
is rethrown as `"Failed to copy folder: " ++ message`. -/
def wrapTry : Except String Unit → Except String Unit
  | .ok () => .ok ()
  | .error e => .error ("Failed to copy folder: " ++ e)

/-- `copyS3Folder(sourcePrefix, destinationPrefix, continuationToken,
depth, maxDepth)` of `aws.ts`.  The continuation token is modelled as the
start index into the listing, advanced by the store's page size
`pageSize`; `IsTruncated` holds when objects remain past the returned
page.  The `depth > maxDepth` guard sits outside the `try`, so its error
propagates to the caller (and is wrapped by each enclosing recursive
call).  An empty listing returns normally ("No files found").  The
`S3_BUCKET` configuration check is outside the scope of the claims. -/
def copyS3Folder (pageSize : Nat) (sp dp : String) (store : S3)
    (token depth maxDepth : Nat) : CopyOut :=
  if depth > maxDepth then
    { result := .error "Maximum recursion depth exceeded while copying S3 folder.",
      store := store, pages := 0 }
  else
    let all := listKeys store sp
    let contents := (all.drop token).take pageSize
    if contents.isEmpty then
      { result := .ok (), store := store, pages := 1 }
    else
      let store2 := copyPage store sp dp contents
      if token + pageSize < all.length then
        let r := copyS3Folder pageSize sp dp store2 (token + pageSize) (depth + 1) maxDepth
        { result := wrapTry r.result, store := r.store, pages := r.pages + 1 }
      else
        { result := .ok (), store := store2, pages := 1 }
termination_by maxDepth + 1 - depth
decreasing_by omega

end Aws

namespace FM

/-- A `File` node of `file-manager.tsx` (`id` coincides with `path` for
entries built by `buildFileTree`). -/
structure File where
  id : String
  name : String
  path : String
  parentId : Option String
  depth : Nat
  content : Option String
deriving DecidableEq, Repr

/-- A `Directory` node: the common fields plus child `files` and `dirs`. -/
inductive Directory where
  | mk (id name path : String) (parentId : Option String) (depth : Nat)
       (files : List File) (dirs : List Directory)
deriving Repr

/-- The `files` field of a `Directory`. -/
def Directory.files : Directory → List File
  | .mk _ _ _ _ _ fs _ => fs

/-- The `dirs` field of a `Directory`. -/
def Directory.dirs : Directory → List Directory
  | .mk _ _ _ _ _ _ ds => ds

/-- Body of the `files.forEach` callback in `findFile`: a matching file
overwrites `targetFile`; the early `return` only leaves the callback, so
iteration continues and a later match overwrites an earlier one. -/
def matchFold (filename : String) (acc : Option File) (f : File) : Option File :=
  if f.name = filename then some f else acc

mutual

/-- The inner recursive `findFile(rootDir, filename)` of `findFileByName`,
with `targetFile` threaded as `acc`: first the `files.forEach` loop, then
`dirs.forEach` recursing into every subdirectory (nothing short-circuits). -/
def findFileLoop (filename : String) (acc : Option File) : Directory → Option File
  | .mk _ _ _ _ _ files dirs =>
    findFileLoopDirs filename (files.foldl (matchFold filename) acc) dirs

/-- The `dirs.forEach((dir) => findFile(dir, filename))` loop. -/
def findFileLoopDirs (filename : String) (acc : Option File) :
    List Directory → Option File
  | [] => acc
  | d :: ds => findFileLoopDirs filename (findFileLoop filename acc d) ds

end

/-- `findFileByName(rootDir, filename)` of `file-manager.tsx`. -/
def findFileByName (rootDir : Directory) (filename : String) : Option File :=
  findFileLoop filename none rootDir

mutual

/-- Traversal order of `findFile`: each directory's own files in order,
then its subdirectories recursively. -/
def preorderFiles : Directory → List File
  | .mk _ _ _ _ _ files dirs => files ++ preorderFilesDirs dirs

/-- `preorderFiles` over a list of sibling directories. -/
def preorderFilesDirs : List Directory → List File
  | [] => []
  | d :: ds => preorderFiles d ++ preorderFilesDirs ds

end

/-- `"x".split("/")` on the underlying character list (the separator is a
single character, so JavaScript and this definition agree). -/
def splitSlash : List Char → List (List Char)
  | [] => [[]]
  | c :: cs =>
    match splitSlash cs with
    | [] => [[]]
    | g :: gs => if c = '/' then [] :: g :: gs else (c :: g) :: gs

/-- `groups.join("/")`. -/
def joinSlash : List (List Char) → List Char
  | [] => []
  | [g] => g
  | g :: gs => g ++ '/' :: joinSlash gs

/-- `item.path.split("/").length`. -/
def segs (p : String) : Nat :=
  (splitSlash p.data).length

/-- `item.path.split("/").slice(0, -1).join("/")`: the path with its last
segment removed. -/
def parentOf (p : String) : String :=
  ⟨joinSlash ((splitSlash p.data).dropLast)⟩

/-- The `parentId` computation of `buildFileTree`: paths of exactly two
segments get the root sentinel `"0"`; otherwise a linear `dirs.find` scan
for a directory entry whose path is the parent path — `undefined` (here
`none`) when no input directory matches. -/
def parentIdOf (dirs : List RemoteFile) (p : String) : Option String :=
  if segs p = 2 then some "0"
  else (dirs.find? (fun x => x.path == parentOf p)).map (fun x => x.path)

/-- A cached object of `buildFileTree` before linking, with object
identity represented by its `id` (the path): the `Directory`/`File` tag,
`name`, `path` and computed `parentId`. -/
structure Node where
  isDir : Bool
  name : String
  path : String
  parentId : Option String
deriving DecidableEq, Repr

/-- The `cache` after the two `forEach` passes: `Directory` objects for
the input directories, then `File` objects for the input files, keyed by
path via `Map.set`. -/
def cacheOf (data : List RemoteFile) : List (String × Node) :=
  let dirs := data.filter (fun x => x.type == RKind.dir)
  let files := data.filter (fun x => x.type == RKind.file)
  ((dirs.map (fun d => (d.path, Node.mk true d.name d.path (parentIdOf dirs d.path)))) ++
   (files.map (fun f => (f.path, Node.mk false f.name f.path (parentIdOf dirs f.path))))).foldl
    (fun m kv => JsMap.objSet m kv.1 kv.2) []

/-- The linking pass's effect on the heap: the root's `dirs`/`files`
arrays and, for every cached directory object, its `dirs`/`files` arrays
(keyed by the directory's id and holding child ids). -/
structure LinkSt where
  rootDirs : List String
  rootFiles : List String
  childDirs : List (String × List String)
  childFiles : List (String × List String)
deriving DecidableEq, Repr

/-- `parentDir.dirs.push(child)` (resp. `files`) in the heap model. -/
def pushChild (m : List (String × List String)) (pid cid : String) :
    List (String × List String) :=
  match JsMap.objGet m pid with
  | some l => JsMap.objSet m pid (l ++ [cid])
  | none => JsMap.objSet m pid [cid]

/-- The `cache.forEach` linking pass of `buildFileTree`.  `parentId`
equal to `"0"` pushes onto the root; otherwise `cache.get(parentId)` is
dereferenced: a missing parent (`undefined`, from a `parentId` that is
itself `undefined` or absent) or a parent that is a `File` (whose `dirs`
and `files` properties are `undefined`) makes the `push` throw a
`TypeError`, modelled as `Except.error ()`. -/
def link (cache : List (String × Node)) :
    List (String × Node) → LinkSt → Except Unit LinkSt
  | [], acc => .ok acc
  | (_, v) :: rest, acc =>
    match v.parentId with
    | some pid =>
      if pid = "0" then
        if v.isDir then
          link cache rest { acc with rootDirs := acc.rootDirs ++ [v.path] }
        else
          link cache rest { acc with rootFiles := acc.rootFiles ++ [v.path] }
      else
        match JsMap.objGet cache pid with
        | some parent =>
          if parent.isDir then
            if v.isDir then
              link cache rest { acc with childDirs := pushChild acc.childDirs pid v.path }
            else
              link cache rest { acc with childFiles := pushChild acc.childFiles pid v.path }
          else .error ()
        | none => .error ()
    | none => .error ()

/-- `buildFileTree(data)` up to and including the linking pass, returning
the cache and the parent/child structure it produced.  The subsequent
`getDepth` pass only assigns `depth` fields over the linked tree and
cannot throw, so it is not modelled. -/
def buildFileTree (data : List RemoteFile) :
    Except Unit (List (String × Node) × LinkSt) :=
  let cache := cacheOf data
  (link cache cache ⟨[], [], [], []⟩).map (fun l => (cache, l))

/-- The ids in the `dirs` array of the cached directory with id `pid`. -/
def childDirsOf (st : LinkSt) (pid : String) : List String :=
  (JsMap.objGet st.childDirs pid).getD []

/-- The ids in the `files` array of the cached directory with id `pid`. -/
def childFilesOf (st : LinkSt) (pid : String) : List String :=
  (JsMap.objGet st.childFiles pid).getD []

/-- A cached entry the linking pass can process without throwing: its
`parentId` is the root sentinel, or names a cached `Directory` object. -/
def goodNode (cache : List (String × Node)) (v : Node) : Prop :=
  v.parentId = some "0" ∨
  ∃ p parent, v.parentId = some p ∧ p ≠ "0" ∧
    JsMap.objGet cache p = some parent ∧ parent.isDir = true

end FM

/-! ## Map lemmas -/

namespace JsMap

theorem objGet_objSet_self {α : Type} (m : List (String × α)) (k : String) (v : α) :
    objGet (objSet m k v) k = some v := by
  induction m with
  | nil => simp [objSet, objGet]
  | cons kv rest ih =>
    by_cases h : kv.1 = k
    · simp [objSet, objGet, h]
    · simp [objSet, objGet, h, ih]

theorem objGet_objSet_ne {α : Type} (m : List (String × α)) (k k' : String) (v : α)
    (h : k ≠ k') : objGet (objSet m k v) k' = objGet m k' := by
  induction m with
  | nil => simp [objSet, objGet, h]
  | cons kv rest ih =>
    obtain ⟨k0, v0⟩ := kv
    by_cases hk : k0 = k
    · subst hk
      simp [objSet, objGet, h, Ne.symm h]
    · by_cases hk' : k0 = k'
      · simp [objSet, objGet, hk, hk', Ne.symm h]
      · simp [objSet, objGet, hk, hk', ih]

theorem objGet_objDelete_self {α : Type} (m : List (String × α)) (k : String) :
    objGet (objDelete m k) k = none := by
  induction m with
  | nil => simp [objDelete, objGet]
  | cons kv rest ih =>
    by_cases h : kv.1 = k
    · simpa [objDelete, objGet, h] using ih
    · simpa [objDelete, objGet, h] using ih

theorem mem_objSet {α : Type} (m : List (String × α)) (k : String) (v : α)
    (hm : (m.map Prod.fst).Nodup) (kv : String × α) (h : kv ∈ objSet m k v) :
    kv = (k, v) ∨ (kv ∈ m ∧ kv.1 ≠ k) := by
  induction m with
  | nil =>
    simp [objSet] at h
    exact Or.inl h
  | cons kv' rest ih =>
    obtain ⟨k0, v0⟩ := kv'
    simp only [List.map_cons, List.nodup_cons] at hm
    by_cases hk : k0 = k
    · subst hk
      simp only [objSet, if_pos rfl] at h
      rcases List.mem_cons.mp h with h | h
      · exact Or.inl h
      · right
        refine ⟨List.mem_cons_of_mem _ h, ?_⟩
        intro hcontra
        exact hm.1 (hcontra ▸ List.mem_map_of_mem Prod.fst h)
    · simp only [objSet, if_neg hk] at h
      rcases List.mem_cons.mp h with h | h
      · right
        refine ⟨by simp [h], by simp [h, hk]⟩
      · rcases ih hm.2 h with h' | h'
        · exact Or.inl h'
        · exact Or.inr ⟨List.mem_cons_of_mem _ h'.1, h'.2⟩

theorem nodupKeys_objSet {α : Type} (m : List (String × α)) (k : String) (v : α)
    (hm : (m.map Prod.fst).Nodup) : ((objSet m k v).map Prod.fst).Nodup := by
  induction m with
  | nil => simp [objSet]
  | cons kv rest ih =>
    obtain ⟨k0, v0⟩ := kv
    simp only [List.map_cons, List.nodup_cons] at hm
    by_cases hk : k0 = k
    · subst hk
      simpa [objSet] using hm
    · simp only [objSet, if_neg hk, List.map_cons, List.nodup_cons]
      refine ⟨?_, ih hm.2⟩
      intro hmem
      rcases List.mem_map.mp hmem with ⟨kv', hkv', hfst⟩
      rcases mem_objSet rest k v hm.2 kv' hkv' with h' | h'
      · refine hk ?_
        simp [h'] at hfst
        exact hfst.symm
      · exact hm.1 (by exact hfst ▸ List.mem_map_of_mem Prod.fst h'.1)

end JsMap

/-! ## PTY Session Manager: claims C1, C2, C6 -/

namespace Pty

open JsMap

/-- C1 counterexample: starting from the empty manager, `createPty`
called twice for session key `"s1"` with no intervening `clear` does
leave an orphaned process — the process created by the first call (pid
`0`) is still live yet mapped from no session key, contradicting the
claim that the replacement first terminates the process of the first
call. -/
theorem C1_counterexample :
    (createPty ⟨[], [], 0⟩ "s1" "r1").2 = 0 ∧
    isOrphan ((createPty ((createPty ⟨[], [], 0⟩ "s1" "r1").1) "s1" "r1").1) 0 = true := by
  decide

/-- C1 amended: calling `createPty(k, ...)` a second time without an
intervening `clear(k)` leaves exactly the replacement process mapped to
`k`, but does not terminate the process created by the first call: that
process remains live and is referenced by no session entry (it is
orphaned). -/
theorem C1_second_create_orphans_first (st : TMState) (k r1 r2 : String)
    (h : WF st) :
    objGet ((createPty (createPty st k r1).1 k r2).1).sessions k
      = some ⟨st.nextPid + 1, r2⟩ ∧
    st.nextPid ∈ ((createPty (createPty st k r1).1 k r2).1).liveProcs ∧
    isOrphan ((createPty (createPty st k r1).1 k r2).1) st.nextPid = true := by
  refine ⟨?_, ?_, ?_⟩
  · simp [createPty, objGet_objSet_self]
  · simp [createPty]
  · simp only [isOrphan, Bool.and_eq_true, List.all_eq_true]
    constructor
    · simp [createPty, List.elem_iff]
    · intro kv hkv
      simp only [createPty] at hkv
      have hnd : ((objSet st.sessions k ⟨st.nextPid, r1⟩).map Prod.fst).Nodup :=
        nodupKeys_objSet _ _ _ h.1
      rcases mem_objSet _ k _ hnd kv hkv with h2 | h2
      · simp [h2]
      · rcases mem_objSet _ k _ h.1 kv h2.1 with h3 | h3
        · exact absurd (by simp [h3]) h2.2
        · have := h.2 kv h3.1
          simp only [decide_eq_true_eq]
          omega

/-- C1 amended, witness: instantiated at the empty manager. -/
theorem C1_second_create_orphans_first_witness :
    WF ⟨[], [], 0⟩ ∧
    (objGet ((createPty (createPty ⟨[], [], 0⟩ "s1" "a").1 "s1" "b").1).sessions "s1"
      = some ⟨1, "b"⟩ ∧
     0 ∈ ((createPty (createPty ⟨[], [], 0⟩ "s1" "a").1 "s1" "b").1).liveProcs ∧
     isOrphan ((createPty (createPty ⟨[], [], 0⟩ "s1" "a").1 "s1" "b").1) 0 = true) :=
  ⟨⟨by decide, by simp⟩,
   C1_second_create_orphans_first ⟨[], [], 0⟩ "s1" "a" "b" ⟨by decide, by simp⟩⟩

/-- C2, evaluated at the failing input: create a session for key `"s1"`
(the spawned shell gets pid `0`) and let the shell process exit.  The
exit handler deletes `sessions[term.pid]` — the key `"0"` — instead of
the session key, so the map still contains the entry for `"s1"` although
no process is live: the stale entry masks process death, contradicting
the claim that the exit handler removes the mapping stored under the
session key. -/
theorem C2_exit_leaves_stale_mapping :
    objGet (processExit ((createPty ⟨[], [], 0⟩ "s1" "r1").1) 0).sessions "s1"
      = some ⟨0, "r1"⟩ ∧
    (processExit ((createPty ⟨[], [], 0⟩ "s1" "r1").1) 0).liveProcs = [] := by
  decide

/-- C6: for a session key with no entry in the map — never created, or
already removed by `clear` — `write(k, data)` is a no-op: the state is
unchanged, no pty write happens, and no error is raised (and after
`clear(k')` the key `k'` is always absent, so a subsequent `write` is
again a no-op). -/
theorem C6_write_absent_noop (st st' : TMState) (k k' d : String)
    (h : objGet st.sessions k = none) :
    write st k d = (st, none) ∧
    objGet (clear st' k').sessions k' = none := by
  constructor
  · simp [write, h]
  · cases hc : objGet st'.sessions k' <;>
      simp [clear, hc, objGet_objDelete_self]

/-- C6 witness: the empty manager for the write, and a one-session
manager for the clear. -/
theorem C6_write_absent_noop_witness :
    objGet (TMState.mk [] [] 0).sessions "s1" = none ∧
    (write ⟨[], [], 0⟩ "s1" "x" = (⟨[], [], 0⟩, none) ∧
     objGet (clear ⟨[("a", ⟨0, "r"⟩)], [0], 1⟩ "a").sessions "a" = none) :=
  ⟨by decide,
   C6_write_absent_noop ⟨[], [], 0⟩ ⟨[("a", ⟨0, "r"⟩)], [0], 1⟩ "s1" "a" "x" (by decide)⟩

end Pty

/-! ## Session Gateway write-through: claims C3, C5 -/

namespace Gw

open JsMap

/-- C3 counterexample: at a concrete failing put (empty state, path
`"/a.txt"`), the handler finishes with the rejection propagating and the
log still empty — the failure is not logged anywhere, contradicting the
claim that a failed durable-store put is logged. -/
theorem C3_counterexample :
    (updateContent true "r1" ⟨[], [], []⟩ "/a.txt" "hi").2.1
      = .error "putObject failed" ∧
    (updateContent true "r1" ⟨[], [], []⟩ "/a.txt" "hi").1.log = [] ∧
    objGet (updateContent true "r1" ⟨[], [], []⟩ "/a.txt" "hi").1.mirror
      "/workspace//a.txt" = some "hi" := by
  decide

/-- C3 amended: when the durable-store put of an `updateContent` request
fails, the already-completed local mirror write is not rolled back, but
the failure is not caught or logged by `saveToS3` or the handler — the
rejection propagates unhandled out of the handler. -/
theorem C3_s3_failure_unlogged (st : GwState) (replId p c : String) :
    (updateContent true replId st p c).1.mirror
      = objSet st.mirror ("/workspace/" ++ p) c ∧
    (updateContent true replId st p c).1.log = st.log ∧
    (updateContent true replId st p c).2.1 = .error "putObject failed" := by
  simp [updateContent, saveFile, saveToS3]

/-- C5: in every `updateContent` request the local mirror write is the
first operation and the durable-store put the second, and a
`fetchContent` for the same path against the resulting state returns the
newly written content whether or not the durable-store put completed
(`fails` ranges over both outcomes of the put). -/
theorem C5_local_write_first_then_readable (fails : Bool) (st : GwState)
    (replId p c : String) :
    (updateContent fails replId st p c).2.2
      = [Op.localWrite ("/workspace/" ++ p) c,
         Op.s3Put ("code/" ++ replId ++ p) c] ∧
    fetchContent (updateContent fails replId st p c).1 p = some c := by
  cases fails <;>
    simp [updateContent, saveFile, saveToS3, fetchContent, objGet_objSet_self]

end Gw

/-! ## Client-side directory merge: claim C4 -/

namespace Merge

open FM

theorem jsFindIndex_eq_some_iff {α : Type} (p : α → Bool) (l : List α) (i : Nat) :
    jsFindIndex p l = some i ↔
      (∃ a, l[i]? = some a ∧ p a = true) ∧
      (∀ j, j < i → ∀ b, l[j]? = some b → p b = false) := by
  induction l generalizing i with
  | nil => simp [jsFindIndex]
  | cons a as ih =>
    by_cases hp : p a
    · simp only [jsFindIndex, if_pos hp]
      constructor
      · intro h
        obtain rfl : (0 : Nat) = i := by simpa using h
        exact ⟨⟨a, by simp, hp⟩, by omega⟩
      · rintro ⟨⟨b, hb, hpb⟩, hmin⟩
        cases i with
        | zero => rfl
        | succ n =>
          exfalso
          have := hmin 0 (by omega) a (by simp)
          simp [hp] at this
    · simp only [jsFindIndex, if_neg hp]
      cases i with
      | zero =>
        constructor
        · intro h
          simp [Option.map_eq_some'] at h
        · rintro ⟨⟨b, hb, hpb⟩, _⟩
          simp only [List.getElem?_cons_zero, Option.some.injEq] at hb
          subst hb
          simp [hpb] at hp
      | succ n =>
        have hmap : ((jsFindIndex p as).map (· + 1) = some (n + 1)) ↔
            jsFindIndex p as = some n := by
          cases h' : jsFindIndex p as <;> simp [h']
        rw [hmap, ih]
        constructor
        · rintro ⟨⟨b, hb, hpb⟩, hmin⟩
          refine ⟨⟨b, by simpa using hb, hpb⟩, ?_⟩
          intro j hj c hc
          cases j with
          | zero =>
            simp only [List.getElem?_cons_zero, Option.some.injEq] at hc
            subst hc
            simpa using hp
          | succ m =>
            exact hmin m (by omega) c (by simpa using hc)
        · rintro ⟨⟨b, hb, hpb⟩, hmin⟩
          refine ⟨⟨b, by simpa using hb, hpb⟩, ?_⟩
          intro j hj c hc
          exact hmin (j + 1) (by omega) c (by simpa using hc)

theorem mem_enum_iff {α : Type} (l : List α) (i : Nat) (a : α) :
    (i, a) ∈ l.enum ↔ l[i]? = some a := by
  rw [List.mem_enum_iff_getElem?]

end Merge

namespace Merge

open FM

theorem find?_eq_jsFindIndex {α : Type} (p : α → Bool) (l : List α) :
    l.find? p = (jsFindIndex p l).bind (fun i => l[i]?) := by
  induction l with
  | nil => simp [jsFindIndex]
  | cons a as ih =>
    by_cases hp : p a
    · simp [jsFindIndex, hp, List.find?_cons_of_pos]
    · rw [List.find?_cons_of_neg _ (by simp [hp]), ih]
      simp only [jsFindIndex, if_neg hp]
      cases h' : jsFindIndex p as <;> simp [h']

theorem find?_eq_some_of_unique {α : Type} (p : α → Bool) (l : List α) (a : α)
    (h1 : a ∈ l) (h2 : p a = true) (h3 : ∀ x ∈ l, p x = true → x = a) :
    l.find? p = some a := by
  induction l with
  | nil => cases h1
  | cons b bs ih =>
    by_cases hp : p b
    · rw [List.find?_cons_of_pos _ hp]
      exact congrArg some (h3 b (by simp) hp)
    · rw [List.find?_cons_of_neg _ (by simp [hp])]
      rcases List.mem_cons.mp h1 with rfl | hmem
      · exact absurd h2 (by simp [hp])
      · exact ih hmem (fun x hx hpx => h3 x (List.mem_cons_of_mem _ hx) hpx)

theorem mem_onSelectMerge {prev data : List RemoteFile} {x : RemoteFile}
    (h : x ∈ onSelectMerge prev data) : x ∈ prev ++ data := by
  simp only [onSelectMerge] at h
  rcases List.mem_map.mp h with ⟨⟨i, y⟩, hfil, rfl⟩
  have hen := (List.mem_filter.mp hfil).1
  have := (mem_enum_iff _ i y).mp hen
  exact List.mem_iff_getElem?.mpr ⟨i, this⟩

theorem paths_nodup_onSelectMerge (prev data : List RemoteFile) :
    ((onSelectMerge prev data).map (fun f => f.path)).Nodup := by
  classical
  set l := prev ++ data with hl
  have hsub : (l.enum.filter
      (fun p => jsFindIndex (fun g => g.path == p.2.path) l = some p.1)).Sublist
      l.enum := List.filter_sublist _
  have hfstnodup :
      ((l.enum.filter
        (fun p => jsFindIndex (fun g => g.path == p.2.path) l = some p.1)).map
          Prod.fst).Nodup := by
    have : (l.enum.map Prod.fst).Nodup := by
      rw [List.enum_map_fst]
      exact List.nodup_range _
    exact (hsub.map Prod.fst).nodup this
  have hpair :
      (l.enum.filter
        (fun p => jsFindIndex (fun g => g.path == p.2.path) l = some p.1)).Pairwise
        (fun a b => a.2.path ≠ b.2.path) := by
    have h1 := (List.pairwise_map).mp hfstnodup
    refine h1.imp_of_mem ?_
    intro a b ha hb hne heq
    have hpa := (List.mem_filter.mp ha).2
    have hpb := (List.mem_filter.mp hb).2
    simp only [decide_eq_true_eq] at hpa hpb
    rw [heq] at hpa
    rw [hpa] at hpb
    exact hne (Option.some.inj hpb)
  simp only [onSelectMerge]
  rw [List.map_map]
  exact (List.pairwise_map).mpr hpair

theorem find?_onSelectMerge (prev data : List RemoteFile) (q : String) :
    (onSelectMerge prev data).find? (fun f => f.path == q)
      = (prev ++ data).find? (fun f => f.path == q) := by
  classical
  set l := prev ++ data with hl
  cases hfind : l.find? (fun f => f.path == q) with
  | none =>
    rw [List.find?_eq_none]
    intro x hx
    exact (List.find?_eq_none.mp hfind) x (mem_onSelectMerge hx)
  | some f =>
    have hq : f.path = q := by simpa using List.find?_some hfind
    have hbridge := find?_eq_jsFindIndex (fun f => f.path == q) l
    rw [hfind] at hbridge
    cases hidx : jsFindIndex (fun f => f.path == q) l with
    | none => rw [hidx] at hbridge; simp at hbridge
    | some i =>
      rw [hidx] at hbridge
      have hget : l[i]? = some f := by
        simpa using hbridge.symm
      have hpredeq :
          (fun g : RemoteFile => g.path == f.path)
            = (fun g : RemoteFile => g.path == q) := by
        funext g; rw [hq]
      have hfmem : f ∈ onSelectMerge prev data := by
        simp only [onSelectMerge]
        refine List.mem_map.mpr ⟨(i, f), ?_, rfl⟩
        refine List.mem_filter.mpr ⟨(mem_enum_iff _ i f).mpr hget, ?_⟩
        simp only [hpredeq, decide_eq_true_eq]
        exact hidx
      refine find?_eq_some_of_unique _ _ f hfmem (by simp [hq]) ?_
      intro x hx hpx
      have hxq : x.path = q := by simpa using hpx
      rcases List.mem_map.mp (by simpa only [onSelectMerge] using hx) with
        ⟨⟨j, y⟩, hfil, hy⟩
      rcases List.mem_filter.mp hfil with ⟨hen, hprop⟩
      simp only [decide_eq_true_eq] at hprop
      have hyx : y = x := hy
      subst hyx
      have hpredeq2 :
          (fun g : RemoteFile => g.path == y.path)
            = (fun g : RemoteFile => g.path == q) := by
        funext g; rw [hxq]
      rw [hpredeq2, hidx] at hprop
      have hji : j = i := (Option.some.inj hprop).symm
      subst hji
      have := (mem_enum_iff _ j y).mp hen
      rw [this] at hget
      exact Option.some.inj hget

/-- C4 counterexample: merging a freshly fetched entry whose path equals
a previously seen one keeps the previously seen entry, not the newly
fetched one — with `prev` holding `{name "old", path "p"}` and the fetch
returning `{name "new", path "p"}`, the accumulated list is exactly the
old entry and the new entry is absent. -/
theorem C4_counterexample :
    onSelectMerge [⟨RKind.file, "old", "p"⟩] [⟨RKind.file, "new", "p"⟩]
      = [⟨RKind.file, "old", "p"⟩] ∧
    (⟨RKind.file, "new", "p"⟩ : RemoteFile) ∉
      onSelectMerge [⟨RKind.file, "old", "p"⟩] [⟨RKind.file, "new", "p"⟩] := by
  decide

/-- C4 amended: the accumulated entry list after a merge contains no two
entries with the same path, and when a newly fetched entry has the same
path as a previously seen one the previously seen entry (the first
occurrence for that path) is the one kept; on the tree
`{a/, a/x.txt, b.txt}`, after fetching `a/` the accumulated set equals
`{a/, a/x.txt, b.txt}` keyed by path with no duplicates. -/
theorem C4_merge_dedup_first_wins (prev data : List RemoteFile) (q : String) :
    ((onSelectMerge prev data).map (fun f => f.path)).Nodup ∧
    (onSelectMerge prev data).find? (fun f => f.path == q)
      = (prev ++ data).find? (fun f => f.path == q) ∧
    onSelectMerge [⟨RKind.dir, "a", "/a"⟩, ⟨RKind.file, "b.txt", "/b.txt"⟩]
        [⟨RKind.file, "x.txt", "/a/x.txt"⟩]
      = [⟨RKind.dir, "a", "/a"⟩, ⟨RKind.file, "b.txt", "/b.txt"⟩,
         ⟨RKind.file, "x.txt", "/a/x.txt"⟩] :=
  ⟨paths_nodup_onSelectMerge prev data, find?_onSelectMerge prev data q, by decide⟩

end Merge

/-! ## Recursive filename search: claim C9 -/

namespace FM

mutual

theorem findFileLoop_eq_foldl (fn : String) (acc : Option File) (d : Directory) :
    findFileLoop fn acc d = (preorderFiles d).foldl (matchFold fn) acc := by
  cases d with
  | mk id name path parentId depth files dirs =>
    rw [findFileLoop, preorderFiles, List.foldl_append,
      findFileLoopDirs_eq_foldl fn (files.foldl (matchFold fn) acc) dirs]

theorem findFileLoopDirs_eq_foldl (fn : String) (acc : Option File)
    (ds : List Directory) :
    findFileLoopDirs fn acc ds = (preorderFilesDirs ds).foldl (matchFold fn) acc := by
  cases ds with
  | nil => rw [findFileLoopDirs, preorderFilesDirs, List.foldl_nil]
  | cons d ds =>
    rw [findFileLoopDirs, preorderFilesDirs, List.foldl_append,
      ← findFileLoop_eq_foldl fn acc d,
      findFileLoopDirs_eq_foldl fn (findFileLoop fn acc d) ds]

end

theorem foldl_matchFold (fn : String) (l : List File) (acc : Option File) :
    l.foldl (matchFold fn) acc
      = ((l.filter (fun f => f.name = fn)).getLast?).orElse (fun _ => acc) := by
  induction l generalizing acc with
  | nil => simp [Option.orElse]
  | cons f l ih =>
    rw [List.foldl_cons, ih]
    by_cases hp : f.name = fn
    · rw [List.filter_cons_of_pos (by simp [hp]), matchFold, if_pos hp]
      cases hfl : l.filter (fun f => f.name = fn) with
      | nil => simp [Option.orElse]
      | cons b bs =>
        cases hlast : (b :: bs).getLast? with
        | none =>
          exact absurd (List.getLast?_eq_none.mp hlast) (by simp)
        | some x =>
          simp [Option.orElse, List.getLast?_cons_cons, hlast]
    · rw [List.filter_cons_of_neg (by simp [hp]), matchFold, if_neg hp]

/-- C9: `findFileByName` does not stop at the first match — for every
tree in which two or more files carry the searched name, the returned
file is the match encountered last in the traversal order (each
directory's files in order, then its subdirectories recursively). -/
theorem C9_findFileByName_returns_last_match (d : Directory) (fn : String)
    (h : 2 ≤ ((preorderFiles d).filter (fun f => f.name = fn)).length) :
    findFileByName d fn
      = ((preorderFiles d).filter (fun f => f.name = fn)).getLast? := by
  rw [findFileByName, findFileLoop_eq_foldl, foldl_matchFold]
  cases hlast : ((preorderFiles d).filter (fun f => f.name = fn)).getLast? <;>
    simp [Option.orElse]

/-- C9 witness: a root with a file `a.txt` and a subdirectory holding a
second file `a.txt`; the search returns the one in the subdirectory (the
last in traversal order). -/
theorem C9_findFileByName_returns_last_match_witness :
    2 ≤ ((preorderFiles
      (Directory.mk "root" "root" "" none 0
        [⟨"/a.txt", "a.txt", "/a.txt", some "0", 0, none⟩]
        [Directory.mk "/d" "d" "/d" (some "0") 0
          [⟨"/d/a.txt", "a.txt", "/d/a.txt", some "/d", 0, none⟩] []])).filter
        (fun f => f.name = "a.txt")).length ∧
    findFileByName
      (Directory.mk "root" "root" "" none 0
        [⟨"/a.txt", "a.txt", "/a.txt", some "0", 0, none⟩]
        [Directory.mk "/d" "d" "/d" (some "0") 0
          [⟨"/d/a.txt", "a.txt", "/d/a.txt", some "/d", 0, none⟩] []]) "a.txt"
      = ((preorderFiles
          (Directory.mk "root" "root" "" none 0
            [⟨"/a.txt", "a.txt", "/a.txt", some "0", 0, none⟩]
            [Directory.mk "/d" "d" "/d" (some "0") 0
              [⟨"/d/a.txt", "a.txt", "/d/a.txt", some "/d", 0, none⟩] []])).filter
            (fun f => f.name = "a.txt")).getLast? :=
  ⟨by decide,
   C9_findFileByName_returns_last_match
     (Directory.mk "root" "root" "" none 0
       [⟨"/a.txt", "a.txt", "/a.txt", some "0", 0, none⟩]
       [Directory.mk "/d" "d" "/d" (some "0") 0
         [⟨"/d/a.txt", "a.txt", "/d/a.txt", some "/d", 0, none⟩] []]) "a.txt"
     (by decide)⟩

end FM

/-! ## Workspace Provisioner: claims C7, C8 -/

namespace Aws

open JsMap

theorem strStarts_iff {p s : String} : strStarts p s = true ↔ p.data <+: s.data :=
  List.isPrefixOf_iff_prefix

theorem replFirst_of_starts (pat rep : List Char) (s : List Char)
    (h : pat.isPrefixOf s = true) :
    replFirst pat rep s = rep ++ s.drop pat.length := by
  cases s with
  | nil =>
    have hp : pat = [] := by
      cases pat with
      | nil => rfl
      | cons c cs => simp [List.isPrefixOf] at h
    subst hp
    simp [replFirst]
  | cons c cs => simp [replFirst, h]

theorem jsReplace_of_starts (k sp dp : String) (h : strStarts sp k = true) :
    jsReplace k sp dp = ⟨dp.data ++ k.data.drop sp.data.length⟩ := by
  simp only [jsReplace, replFirst_of_starts sp.data dp.data k.data h]

theorem strStarts_append_dest (sp dp : String) (sfx : List Char)
    (hsd : strStarts sp dp = false) (hds : strStarts dp sp = false) :
    strStarts sp ⟨dp.data ++ sfx⟩ = false := by
  cases h : strStarts sp ⟨dp.data ++ sfx⟩ with
  | false => rfl
  | true =>
    exfalso
    have hp : sp.data <+: dp.data ++ sfx := strStarts_iff.mp h
    by_cases hlen : sp.data.length ≤ dp.data.length
    · have htake := List.prefix_iff_eq_take.mp hp
      rw [List.take_append_eq_append_take, Nat.sub_eq_zero_of_le hlen,
        List.take_zero, List.append_nil] at htake
      have : sp.data <+: dp.data :=
        List.prefix_iff_eq_take.mpr (by simpa using htake)
      rw [← strStarts_iff] at this
      exact absurd this (by simp [hsd])
    · have htake := List.prefix_iff_eq_take.mp hp
      rw [List.take_append_eq_append_take,
        List.take_of_length_le (by omega)] at htake
      have : dp.data <+: sp.data := ⟨_, htake.symm⟩
      rw [← strStarts_iff] at this
      exact absurd this (by simp [hds])

theorem strStarts_jsReplace (sp dp k : String) (hk : strStarts sp k = true)
    (hsd : strStarts sp dp = false) (hds : strStarts dp sp = false) :
    strStarts sp (jsReplace k sp dp) = false := by
  rw [jsReplace_of_starts k sp dp hk]
  exact strStarts_append_dest sp dp _ hsd hds

theorem jsReplace_ne_of_starts (sp dp k q : String) (hk : strStarts sp k = true)
    (hq : strStarts sp q = true)
    (hsd : strStarts sp dp = false) (hds : strStarts dp sp = false) :
    jsReplace k sp dp ≠ q := by
  intro hcontra
  have := strStarts_jsReplace sp dp k hk hsd hds
  rw [hcontra] at this
  rw [this] at hq
  cases hq

theorem jsReplace_inj (sp dp a b : String) (ha : strStarts sp a = true)
    (hb : strStarts sp b = true) (h : jsReplace a sp dp = jsReplace b sp dp) :
    a = b := by
  rw [jsReplace_of_starts a sp dp ha, jsReplace_of_starts b sp dp hb] at h
  have hdata : dp.data ++ a.data.drop sp.data.length
      = dp.data ++ b.data.drop sp.data.length := congrArg String.data h
  have hdrop := List.append_cancel_left hdata
  have hadec := List.prefix_iff_eq_append.mp (strStarts_iff.mp ha)
  have hbdec := List.prefix_iff_eq_append.mp (strStarts_iff.mp hb)
  have : a.data = b.data := by
    rw [← hadec, ← hbdec, hdrop]
  cases a; cases b
  exact congrArg String.mk this

theorem mem_listKeys {st : S3} {sp k : String} :
    k ∈ listKeys st sp ↔ k ∈ st.map Prod.fst ∧ strStarts sp k = true := by
  simp [listKeys, List.mem_filter]

theorem objGet_isSome_of_mem_keys (st : S3) (k : String)
    (h : k ∈ st.map Prod.fst) : ∃ v, objGet st k = some v := by
  induction st with
  | nil => simp at h
  | cons kv rest ih =>
    by_cases hk : kv.1 = k
    · exact ⟨kv.2, by simp [objGet, hk]⟩
    · have h2 : k = kv.1 ∨ k ∈ rest.map Prod.fst := by
        simpa only [List.map_cons, List.mem_cons] using h
      rcases h2 with h' | h'
      · exact absurd h'.symm hk
      · rcases ih h' with ⟨v, hv⟩
        exact ⟨v, by simp [objGet, hk, hv]⟩

theorem listKeys_objSet_not_starts (st : S3) (sp k v : String)
    (h : strStarts sp k = false) :
    listKeys (objSet st k v) sp = listKeys st sp := by
  induction st with
  | nil => simp [objSet, listKeys, h]
  | cons kv rest ih =>
    obtain ⟨k0, v0⟩ := kv
    by_cases hk : k0 = k
    · subst hk
      simp [objSet, listKeys, List.filter_cons, h]
    · simp only [listKeys] at ih
      simp only [objSet, if_neg hk, listKeys, List.map_cons, List.filter_cons]
      cases hs : strStarts sp k0 <;> simp [hs, ih]

theorem nodupKeys_objSet_s3 (st : S3) (k v : String)
    (h : (st.map Prod.fst).Nodup) : ((objSet st k v).map Prod.fst).Nodup :=
  nodupKeys_objSet st k v h

theorem objSet_id (st : S3) (k v : String) (h : objGet st k = some v) :
    objSet st k v = st := by
  induction st with
  | nil => simp [objGet] at h
  | cons kv rest ih =>
    obtain ⟨k0, v0⟩ := kv
    by_cases hk : k0 = k
    · subst hk
      have hv : v0 = v := by simpa [objGet] using h
      simp [objSet, hv]
    · simp only [objGet, if_neg hk] at h
      simp [objSet, hk, ih h]

theorem mem_keys_objSet {α : Type} (m : List (String × α)) (kk : String) (vv : α)
    (k' : String) (h : k' ∈ m.map Prod.fst) :
    k' ∈ (objSet m kk vv).map Prod.fst := by
  induction m with
  | nil => simp at h
  | cons kv rest ih =>
    obtain ⟨k0, v0⟩ := kv
    by_cases hk : k0 = kk
    · subst hk
      simpa [objSet] using h
    · simp only [List.map_cons, List.mem_cons] at h
      rcases h with h | h
      · simp [objSet, hk, h]
      · simp only [objSet, if_neg hk, List.map_cons, List.mem_cons]
        exact Or.inr (ih h)

theorem copyPage_cons (st : S3) (sp dp k : String) (ks : List String) :
    copyPage st sp dp (k :: ks)
      = copyPage (copyObject st k (jsReplace k sp dp)) sp dp ks := rfl

theorem copyPage_listKeys (sp dp : String) (keys : List String) (st : S3)
    (hsd : strStarts sp dp = false) (hds : strStarts dp sp = false)
    (hk : ∀ k ∈ keys, strStarts sp k = true) :
    listKeys (copyPage st sp dp keys) sp = listKeys st sp := by
  induction keys generalizing st with
  | nil => rfl
  | cons k0 ks ih =>
    rw [copyPage_cons]
    have hstep : listKeys (copyObject st k0 (jsReplace k0 sp dp)) sp
        = listKeys st sp := by
      cases hv : objGet st k0 with
      | none => simp [copyObject, hv]
      | some v =>
        simp only [copyObject, hv]
        exact listKeys_objSet_not_starts st sp _ v
          (strStarts_jsReplace sp dp k0 (hk k0 (by simp)) hsd hds)
    rw [ih _ (fun k hk' => hk k (List.mem_cons_of_mem _ hk')), hstep]

theorem copyPage_objGet_src (sp dp : String) (keys : List String) (st : S3)
    (q : String)
    (hsd : strStarts sp dp = false) (hds : strStarts dp sp = false)
    (hk : ∀ k ∈ keys, strStarts sp k = true) (hq : strStarts sp q = true) :
    objGet (copyPage st sp dp keys) q = objGet st q := by
  induction keys generalizing st with
  | nil => rfl
  | cons k0 ks ih =>
    rw [copyPage_cons]
    have hstep : objGet (copyObject st k0 (jsReplace k0 sp dp)) q = objGet st q := by
      cases hv : objGet st k0 with
      | none => simp [copyObject, hv]
      | some v =>
        simp only [copyObject, hv]
        exact objGet_objSet_ne st _ q v
          (jsReplace_ne_of_starts sp dp k0 q (hk k0 (by simp)) hq hsd hds)
    rw [ih _ (fun k hk' => hk k (List.mem_cons_of_mem _ hk')), hstep]

theorem copyPage_frame (sp dp : String) (keys : List String) (st : S3)
    (q : String) (hq : ∀ k ∈ keys, jsReplace k sp dp ≠ q) :
    objGet (copyPage st sp dp keys) q = objGet st q := by
  induction keys generalizing st with
  | nil => rfl
  | cons k0 ks ih =>
    rw [copyPage_cons]
    have hstep : objGet (copyObject st k0 (jsReplace k0 sp dp)) q = objGet st q := by
      cases hv : objGet st k0 with
      | none => simp [copyObject, hv]
      | some v =>
        simp only [copyObject, hv]
        exact objGet_objSet_ne st _ q v (hq k0 (by simp))
    rw [ih _ (fun k hk' => hq k (List.mem_cons_of_mem _ hk')), hstep]

theorem copyPage_nodupKeys (sp dp : String) (keys : List String) (st : S3)
    (h : (st.map Prod.fst).Nodup) :
    ((copyPage st sp dp keys).map Prod.fst).Nodup := by
  induction keys generalizing st with
  | nil => exact h
  | cons k0 ks ih =>
    rw [copyPage_cons]
    refine ih _ ?_
    cases hv : objGet st k0 with
    | none => simpa [copyObject, hv] using h
    | some v =>
      simp only [copyObject, hv]
      exact nodupKeys_objSet st _ v h

theorem copyPage_copies (sp dp : String) (keys : List String) (st : S3)
    (hsd : strStarts sp dp = false) (hds : strStarts dp sp = false)
    (hk : ∀ k ∈ keys, strStarts sp k = true) (hnd : keys.Nodup)
    (hmem : ∀ k ∈ keys, k ∈ st.map Prod.fst) :
    ∀ k ∈ keys,
      objGet (copyPage st sp dp keys) (jsReplace k sp dp) = objGet st k := by
  induction keys generalizing st with
  | nil => intro k hk'; cases hk'
  | cons k0 ks ih =>
    intro k hkmem
    have hs0 : strStarts sp k0 = true := hk k0 (by simp)
    obtain ⟨v, hv⟩ := objGet_isSome_of_mem_keys st k0 (hmem k0 (by simp))
    have hst1 : copyObject st k0 (jsReplace k0 sp dp)
        = objSet st (jsReplace k0 sp dp) v := by
      simp [copyObject, hv]
    rcases List.mem_cons.mp hkmem with rfl | hmemks
    · rw [copyPage_cons, hst1]
      rw [copyPage_frame sp dp ks _ _ ?hq]
      case hq =>
        intro k' hk' hcontra
        have : k' = k := jsReplace_inj sp dp k' k
          (hk k' (List.mem_cons_of_mem _ hk')) hs0 hcontra
        subst this
        exact (List.nodup_cons.mp hnd).1 hk'
      rw [objGet_objSet_self, hv]
    · rw [copyPage_cons, hst1]
      have hsk : strStarts sp k = true := hk k (List.mem_cons_of_mem _ hmemks)
      have hne : jsReplace k0 sp dp ≠ k :=
        jsReplace_ne_of_starts sp dp k0 k hs0 hsk hsd hds
      rw [ih (objSet st (jsReplace k0 sp dp) v)
        (fun k' hk' => hk k' (List.mem_cons_of_mem _ hk'))
        (List.nodup_cons.mp hnd).2
        (fun k' hk' => mem_keys_objSet st _ v k'
          (hmem k' (List.mem_cons_of_mem _ hk'))) k hmemks]
      exact objGet_objSet_ne st _ k v hne

theorem copyPage_id (sp dp : String) (keys : List String) (st : S3)
    (hid : ∀ k ∈ keys, objGet st (jsReplace k sp dp) = objGet st k)
    (hmem : ∀ k ∈ keys, k ∈ st.map Prod.fst) :
    copyPage st sp dp keys = st := by
  induction keys with
  | nil => rfl
  | cons k0 ks ih =>
    obtain ⟨v, hv⟩ := objGet_isSome_of_mem_keys st k0 (hmem k0 (by simp))
    have hst1 : copyObject st k0 (jsReplace k0 sp dp) = st := by
      simp only [copyObject, hv]
      exact objSet_id st _ v (by rw [hid k0 (by simp), hv])
    rw [copyPage_cons, hst1]
    exact ih (fun k hk' => hid k (List.mem_cons_of_mem _ hk'))
      (fun k hk' => hmem k (List.mem_cons_of_mem _ hk'))

theorem contents_starts (store : S3) (sp : String) (token ps : Nat) :
    ∀ k ∈ (List.take ps (List.drop token (listKeys store sp))),
      strStarts sp k = true := by
  intro k hk
  exact (mem_listKeys.mp (List.mem_of_mem_drop (List.mem_of_mem_take hk))).2

theorem contents_mem_keys (store : S3) (sp : String) (token ps : Nat) :
    ∀ k ∈ (List.take ps (List.drop token (listKeys store sp))),
      k ∈ store.map Prod.fst := by
  intro k hk
  exact (mem_listKeys.mp (List.mem_of_mem_drop (List.mem_of_mem_take hk))).1


theorem isEmpty_true_eq_nil {α : Type} {l : List α} (h : l.isEmpty = true) :
    l = [] := by
  cases l with
  | nil => rfl
  | cons a as => simp at h

theorem copyS3Folder_eq_guard (ps : Nat) (sp dp : String) (store : S3)
    (token depth maxD : Nat) (h : depth > maxD) :
    copyS3Folder ps sp dp store token depth maxD
      = ⟨.error "Maximum recursion depth exceeded while copying S3 folder.",
         store, 0⟩ := by
  rw [copyS3Folder]
  simp [h]

theorem copyS3Folder_eq_empty (ps : Nat) (sp dp : String) (store : S3)
    (token depth maxD : Nat) (h : ¬depth > maxD)
    (hempty : List.take ps (List.drop token (listKeys store sp)) = []) :
    copyS3Folder ps sp dp store token depth maxD = ⟨.ok (), store, 1⟩ := by
  rw [copyS3Folder]
  simp [h, hempty]

theorem copyS3Folder_eq_rec (ps : Nat) (sp dp : String) (store : S3)
    (token depth maxD : Nat) (h : ¬depth > maxD)
    (hne : List.take ps (List.drop token (listKeys store sp)) ≠ [])
    (htr : token + ps < (listKeys store sp).length) :
    copyS3Folder ps sp dp store token depth maxD
      = ⟨wrapTry (copyS3Folder ps sp dp
            (copyPage store sp dp (List.take ps (List.drop token (listKeys store sp))))
            (token + ps) (depth + 1) maxD).result,
         (copyS3Folder ps sp dp
            (copyPage store sp dp (List.take ps (List.drop token (listKeys store sp))))
            (token + ps) (depth + 1) maxD).store,
         (copyS3Folder ps sp dp
            (copyPage store sp dp (List.take ps (List.drop token (listKeys store sp))))
            (token + ps) (depth + 1) maxD).pages + 1⟩ := by
  rw [copyS3Folder]
  simp [h, hne, htr]

theorem copyS3Folder_eq_last (ps : Nat) (sp dp : String) (store : S3)
    (token depth maxD : Nat) (h : ¬depth > maxD)
    (hne : List.take ps (List.drop token (listKeys store sp)) ≠ [])
    (htr : ¬token + ps < (listKeys store sp).length) :
    copyS3Folder ps sp dp store token depth maxD
      = ⟨.ok (),
         copyPage store sp dp (List.take ps (List.drop token (listKeys store sp))),
         1⟩ := by
  rw [copyS3Folder]
  simp [h, hne, htr]

theorem copyS3Folder_inv (ps : Nat) (sp dp : String)
    (hsd : strStarts sp dp = false) (hds : strStarts dp sp = false)
    (store0 : S3) (token0 depth0 maxD0 : Nat) :
    listKeys (copyS3Folder ps sp dp store0 token0 depth0 maxD0).store sp
        = listKeys store0 sp ∧
    ∀ q, strStarts sp q = true →
      objGet (copyS3Folder ps sp dp store0 token0 depth0 maxD0).store q
        = objGet store0 q := by
  induction store0, token0, depth0, maxD0 using copyS3Folder.induct ps sp dp with
  | case1 store token depth maxD h =>
    rw [copyS3Folder_eq_guard ps sp dp store token depth maxD h]
    exact ⟨rfl, fun q _ => rfl⟩
  | case2 store token depth maxD h all contents hempty =>
    rw [copyS3Folder_eq_empty ps sp dp store token depth maxD h
      (isEmpty_true_eq_nil hempty)]
    exact ⟨rfl, fun q _ => rfl⟩
  | case3 store token depth maxD h all contents hne store2 htr ih =>
    rw [copyS3Folder_eq_rec ps sp dp store token depth maxD h
      (fun hcontra => hne (by simp [contents, hcontra])) htr]
    refine ⟨?_, ?_⟩
    · rw [ih.1]
      exact copyPage_listKeys sp dp _ store hsd hds (contents_starts store sp token ps)
    · intro q hq
      rw [ih.2 q hq]
      exact copyPage_objGet_src sp dp _ store q hsd hds
        (contents_starts store sp token ps) hq
  | case4 store token depth maxD h all contents hne htr =>
    rw [copyS3Folder_eq_last ps sp dp store token depth maxD h
      (fun hcontra => hne (by simp [contents, hcontra])) htr]
    refine ⟨?_, ?_⟩
    · exact copyPage_listKeys sp dp _ store hsd hds (contents_starts store sp token ps)
    · intro q hq
      exact copyPage_objGet_src sp dp _ store q hsd hds
        (contents_starts store sp token ps) hq

theorem copyS3Folder_frame (ps : Nat) (sp dp : String)
    (hsd : strStarts sp dp = false) (hds : strStarts dp sp = false)
    (store0 : S3) (token0 depth0 maxD0 : Nat) :
    ∀ q, (∀ k ∈ (listKeys store0 sp).drop token0, jsReplace k sp dp ≠ q) →
      objGet (copyS3Folder ps sp dp store0 token0 depth0 maxD0).store q
        = objGet store0 q := by
  induction store0, token0, depth0, maxD0 using copyS3Folder.induct ps sp dp with
  | case1 store token depth maxD h =>
    intro q _
    rw [copyS3Folder_eq_guard ps sp dp store token depth maxD h]
  | case2 store token depth maxD h all contents hempty =>
    intro q _
    rw [copyS3Folder_eq_empty ps sp dp store token depth maxD h
      (isEmpty_true_eq_nil hempty)]
  | case3 store token depth maxD h all contents hne store2 htr ih =>
    intro q hq
    rw [copyS3Folder_eq_rec ps sp dp store token depth maxD h
      (fun hcontra => hne (by simp [contents, hcontra])) htr]
    have hdropsplit : (listKeys store sp).drop token
        = List.take ps ((listKeys store sp).drop token)
          ++ (listKeys store sp).drop (token + ps) := by
      rw [← List.drop_drop]
      exact (List.take_append_drop ps _).symm
    have hqcontents : ∀ k ∈ List.take ps ((listKeys store sp).drop token),
        jsReplace k sp dp ≠ q := by
      intro k hk
      exact hq k (by rw [hdropsplit]; exact List.mem_append_left _ hk)
    have hqrest : ∀ k ∈ (listKeys store sp).drop (token + ps),
        jsReplace k sp dp ≠ q := by
      intro k hk
      exact hq k (by rw [hdropsplit]; exact List.mem_append_right _ hk)
    have hkeys2 : listKeys store2 sp = listKeys store sp :=
      copyPage_listKeys sp dp _ store hsd hds (contents_starts store sp token ps)
    rw [ih q (by rw [hkeys2]; exact hqrest)]
    exact copyPage_frame sp dp _ store q hqcontents
  | case4 store token depth maxD h all contents hne htr =>
    intro q hq
    rw [copyS3Folder_eq_last ps sp dp store token depth maxD h
      (fun hcontra => hne (by simp [contents, hcontra])) htr]
    refine copyPage_frame sp dp _ store q ?_
    intro k hk
    exact hq k (List.mem_of_mem_take hk)

theorem copyS3Folder_pages_le (ps : Nat) (sp dp : String)
    (store0 : S3) (token0 depth0 maxD0 : Nat) :
    (copyS3Folder ps sp dp store0 token0 depth0 maxD0).pages
      ≤ maxD0 + 1 - depth0 := by
  induction store0, token0, depth0, maxD0 using copyS3Folder.induct ps sp dp with
  | case1 store token depth maxD h =>
    rw [copyS3Folder_eq_guard ps sp dp store token depth maxD h]
    simp
  | case2 store token depth maxD h all contents hempty =>
    rw [copyS3Folder_eq_empty ps sp dp store token depth maxD h
      (isEmpty_true_eq_nil hempty)]
    simp only []
    omega
  | case3 store token depth maxD h all contents hne store2 htr ih =>
    rw [copyS3Folder_eq_rec ps sp dp store token depth maxD h
      (fun hcontra => hne (by simp [contents, hcontra])) htr]
    have ih' : (copyS3Folder ps sp dp
        (copyPage store sp dp (List.take ps (List.drop token (listKeys store sp))))
        (token + ps) (depth + 1) maxD).pages ≤ maxD + 1 - (depth + 1) := ih
    simp only []
    omega
  | case4 store token depth maxD h all contents hne htr =>
    rw [copyS3Folder_eq_last ps sp dp store token depth maxD h
      (fun hcontra => hne (by simp [contents, hcontra])) htr]
    simp only []
    omega

theorem copyS3Folder_err (ps : Nat) (sp dp : String) (hps : 0 < ps)
    (hsd : strStarts sp dp = false) (hds : strStarts dp sp = false)
    (store0 : S3) (token0 depth0 maxD0 : Nat)
    (hbig : token0 + (maxD0 + 1 - depth0) * ps < (listKeys store0 sp).length) :
    ∃ e, (copyS3Folder ps sp dp store0 token0 depth0 maxD0).result = .error e := by
  induction store0, token0, depth0, maxD0 using copyS3Folder.induct ps sp dp with
  | case1 store token depth maxD h =>
    rw [copyS3Folder_eq_guard ps sp dp store token depth maxD h]
    exact ⟨_, rfl⟩
  | case2 store token depth maxD h all contents hempty =>
    exfalso
    have hnil : List.take ps (List.drop token (listKeys store sp)) = [] :=
      isEmpty_true_eq_nil hempty
    rcases List.take_eq_nil_iff.mp hnil with h' | h'
    · omega
    · have := List.drop_eq_nil_iff.mp h'
      omega
  | case3 store token depth maxD h all contents hne store2 htr ih =>
    rw [copyS3Folder_eq_rec ps sp dp store token depth maxD h
      (fun hcontra => hne (by simp [contents, hcontra])) htr]
    have hkeys2 : listKeys store2 sp = listKeys store sp :=
      copyPage_listKeys sp dp _ store hsd hds (contents_starts store sp token ps)
    have hstep : (maxD + 1 - depth) * ps = (maxD + 1 - (depth + 1)) * ps + ps := by
      have hd : maxD + 1 - depth = (maxD + 1 - (depth + 1)) + 1 := by omega
      rw [hd, Nat.succ_mul]
    rcases ih (by rw [hkeys2]; omega) with ⟨e, he⟩
    exact ⟨_, by rw [he]; rfl⟩
  | case4 store token depth maxD h all contents hne htr =>
    exfalso
    have htr' : ¬token + ps < (listKeys store sp).length := htr
    have hd : 1 ≤ maxD + 1 - depth := by omega
    have : 1 * ps ≤ (maxD + 1 - depth) * ps := Nat.mul_le_mul_right ps hd
    omega

theorem wrapTry_ok {r : Except String Unit} (h : wrapTry r = .ok ()) :
    r = .ok () := by
  cases r with
  | ok u => cases u; rfl
  | error e => simp [wrapTry] at h

theorem copyS3Folder_copies (ps : Nat) (sp dp : String) (hps : 0 < ps)
    (hsd : strStarts sp dp = false) (hds : strStarts dp sp = false)
    (store0 : S3) (token0 depth0 maxD0 : Nat) :
    (store0.map Prod.fst).Nodup →
    (copyS3Folder ps sp dp store0 token0 depth0 maxD0).result = .ok () →
    ∀ k ∈ (listKeys store0 sp).drop token0,
      objGet (copyS3Folder ps sp dp store0 token0 depth0 maxD0).store
          (jsReplace k sp dp)
        = objGet store0 k := by
  induction store0, token0, depth0, maxD0 using copyS3Folder.induct ps sp dp with
  | case1 store token depth maxD h =>
    intro _ hok
    rw [copyS3Folder_eq_guard ps sp dp store token depth maxD h] at hok
    exact absurd hok (by simp)
  | case2 store token depth maxD h all contents hempty =>
    intro _ _ k hk
    exfalso
    rcases List.take_eq_nil_iff.mp (isEmpty_true_eq_nil hempty) with h' | h'
    · omega
    · rw [h'] at hk
      cases hk
  | case3 store token depth maxD h all contents hne store2 htr ih =>
    intro hnd hok k hk
    have hne' : List.take ps (List.drop token (listKeys store sp)) ≠ [] :=
      fun hcontra => hne (by simp [contents, hcontra])
    rw [copyS3Folder_eq_rec ps sp dp store token depth maxD h hne' htr] at hok ⊢
    have hokchild : (copyS3Folder ps sp dp
        (copyPage store sp dp (List.take ps (List.drop token (listKeys store sp))))
        (token + ps) (depth + 1) maxD).result = .ok () := wrapTry_ok hok
    have hkeys2 : listKeys store2 sp = listKeys store sp :=
      copyPage_listKeys sp dp _ store hsd hds (contents_starts store sp token ps)
    have hnd2 : (store2.map Prod.fst).Nodup :=
      copyPage_nodupKeys sp dp _ store hnd
    have hLnodup : (listKeys store sp).Nodup := hnd.filter _
    have hdropnodup : ((listKeys store sp).drop token).Nodup :=
      hLnodup.sublist (List.drop_sublist token _)
    have hdropsplit : (listKeys store sp).drop token
        = List.take ps ((listKeys store sp).drop token)
          ++ (listKeys store sp).drop (token + ps) := by
      rw [← List.drop_drop]
      exact (List.take_append_drop ps _).symm
    have hdisj : (List.take ps ((listKeys store sp).drop token)).Disjoint
        ((listKeys store sp).drop (token + ps)) := by
      have := hdropnodup
      rw [hdropsplit] at this
      exact (List.nodup_append.mp this).2.2
    rw [hdropsplit] at hk
    rcases List.mem_append.mp hk with hk1 | hk2
    · have hcp : objGet store2 (jsReplace k sp dp) = objGet store k :=
        copyPage_copies sp dp _ store hsd hds (contents_starts store sp token ps)
          (hdropnodup.sublist (List.take_sublist ps _))
          (contents_mem_keys store sp token ps) k hk1
      have hframe := copyS3Folder_frame ps sp dp hsd hds store2
        (token + ps) (depth + 1) maxD (jsReplace k sp dp) ?hq
      case hq =>
        intro k' hk' hcontra
        have hk'L : k' ∈ (listKeys store sp).drop (token + ps) := by
          rw [hkeys2] at hk'
          exact hk'
        have hsk : strStarts sp k = true :=
          contents_starts store sp token ps k hk1
        have hsk' : strStarts sp k' = true :=
          (mem_listKeys.mp (List.mem_of_mem_drop hk'L)).2
        have : k' = k := jsReplace_inj sp dp k' k hsk' hsk hcontra
        subst this
        exact hdisj hk1 hk'L
      calc objGet (copyS3Folder ps sp dp
              (copyPage store sp dp
                (List.take ps (List.drop token (listKeys store sp))))
              (token + ps) (depth + 1) maxD).store (jsReplace k sp dp)
          = objGet store2 (jsReplace k sp dp) := hframe
        _ = objGet store k := hcp
    · have hih := ih hnd2 hokchild k (by rw [hkeys2]; exact hk2)
      have hsrc : objGet store2 k = objGet store k :=
        copyPage_objGet_src sp dp _ store k hsd hds
          (contents_starts store sp token ps)
          ((mem_listKeys.mp (List.mem_of_mem_drop hk2)).2)
      calc objGet (copyS3Folder ps sp dp
              (copyPage store sp dp
                (List.take ps (List.drop token (listKeys store sp))))
              (token + ps) (depth + 1) maxD).store (jsReplace k sp dp)
          = objGet store2 k := hih
        _ = objGet store k := hsrc
  | case4 store token depth maxD h all contents hne htr =>
    intro hnd _ k hk
    have hne' : List.take ps (List.drop token (listKeys store sp)) ≠ [] :=
      fun hcontra => hne (by simp [contents, hcontra])
    rw [copyS3Folder_eq_last ps sp dp store token depth maxD h hne' htr]
    have htr' : ¬token + ps < (listKeys store sp).length := htr
    have hfull : List.take ps ((listKeys store sp).drop token)
        = (listKeys store sp).drop token := by
      refine List.take_of_length_le ?_
      rw [List.length_drop]
      omega
    have hLnodup : (listKeys store sp).Nodup := hnd.filter _
    have hdropnodup : ((listKeys store sp).drop token).Nodup :=
      hLnodup.sublist (List.drop_sublist token _)
    refine copyPage_copies sp dp _ store hsd hds
      (contents_starts store sp token ps)
      (hdropnodup.sublist (List.take_sublist ps _))
      (contents_mem_keys store sp token ps) k ?_
    rw [hfull]
    exact hk

theorem copyS3Folder_id (ps : Nat) (sp dp : String)
    (hsd : strStarts sp dp = false) (hds : strStarts dp sp = false)
    (store0 : S3) (token0 depth0 maxD0 : Nat) :
    (∀ k ∈ listKeys store0 sp,
      objGet store0 (jsReplace k sp dp) = objGet store0 k) →
    (copyS3Folder ps sp dp store0 token0 depth0 maxD0).store = store0 := by
  induction store0, token0, depth0, maxD0 using copyS3Folder.induct ps sp dp with
  | case1 store token depth maxD h =>
    intro _
    rw [copyS3Folder_eq_guard ps sp dp store token depth maxD h]
  | case2 store token depth maxD h all contents hempty =>
    intro _
    rw [copyS3Folder_eq_empty ps sp dp store token depth maxD h
      (isEmpty_true_eq_nil hempty)]
  | case3 store token depth maxD h all contents hne store2 htr ih =>
    intro hid
    have hne' : List.take ps (List.drop token (listKeys store sp)) ≠ [] :=
      fun hcontra => hne (by simp [contents, hcontra])
    rw [copyS3Folder_eq_rec ps sp dp store token depth maxD h hne' htr]
    have hstore2 : copyPage store sp dp
        (List.take ps (List.drop token (listKeys store sp))) = store :=
      copyPage_id sp dp _ store
        (fun k hk => hid k (List.mem_of_mem_drop (List.mem_of_mem_take hk)))
        (contents_mem_keys store sp token ps)
    have hch := ih (by
      have h2 : store2 = store := hstore2
      rw [h2]
      exact hid)
    have hch' : (copyS3Folder ps sp dp
        (copyPage store sp dp (List.take ps (List.drop token (listKeys store sp))))
        (token + ps) (depth + 1) maxD).store
        = copyPage store sp dp
            (List.take ps (List.drop token (listKeys store sp))) := hch
    rw [hstore2] at hch'
    show (copyS3Folder ps sp dp
        (copyPage store sp dp (List.take ps (List.drop token (listKeys store sp))))
        (token + ps) (depth + 1) maxD).store = store
    rw [hstore2]
    exact hch'
  | case4 store token depth maxD h all contents hne htr =>
    intro hid
    have hne' : List.take ps (List.drop token (listKeys store sp)) ≠ [] :=
      fun hcontra => hne (by simp [contents, hcontra])
    rw [copyS3Folder_eq_last ps sp dp store token depth maxD h hne' htr]
    exact copyPage_id sp dp _ store
      (fun k hk => hid k (List.mem_of_mem_drop (List.mem_of_mem_take hk)))
      (contents_mem_keys store sp token ps)

end Aws

namespace Aws

open JsMap

/-- C7: `copyS3Folder` terminates for every store and prefix pair — it
consumes at most `maxDepth + 1` listing pages — and when the objects
under the source prefix would need more pages than the `maxDepth`
ceiling allows, the call reports an error to the caller instead of
looping forever or returning a silent partial success. -/
theorem C7_pagination_bounded_and_reported (ps maxD : Nat) (sp dp : String)
    (st : S3) (hps : 0 < ps)
    (hsd : strStarts sp dp = false) (hds : strStarts dp sp = false) :
    (copyS3Folder ps sp dp st 0 0 maxD).pages ≤ maxD + 1 ∧
    ((maxD + 1) * ps < (listKeys st sp).length →
      ∃ e, (copyS3Folder ps sp dp st 0 0 maxD).result = .error e) := by
  constructor
  · simpa using copyS3Folder_pages_le ps sp dp st 0 0 maxD
  · intro hbig
    exact copyS3Folder_err ps sp dp hps hsd hds st 0 0 maxD (by simpa using hbig)

/-- C7 witness: page size 1, ceiling 0, a template prefix holding two
objects (needing two pages, which exceeds the ceiling). -/
theorem C7_pagination_bounded_and_reported_witness :
    (copyS3Folder 1 "base/t" "code/w"
        [("base/t/a", "1"), ("base/t/b", "2")] 0 0 0).pages ≤ 0 + 1 ∧
    ((0 + 1) * 1 < (listKeys [("base/t/a", "1"), ("base/t/b", "2")] "base/t").length →
      ∃ e, (copyS3Folder 1 "base/t" "code/w"
          [("base/t/a", "1"), ("base/t/b", "2")] 0 0 0).result = .error e) :=
  C7_pagination_bounded_and_reported 1 0 "base/t" "code/w"
    [("base/t/a", "1"), ("base/t/b", "2")] (by decide) (by decide) (by decide)

/-- C8: a successful `copyS3Folder` run copies every object listed under
the source prefix to the destination key obtained by replacing the
source prefix with the destination prefix (the relative suffix is
preserved, and the destination object equals the source object), and
running the same copy again leaves the store exactly as after the first
run (overwrite semantics, idempotent at the object level). -/
theorem C8_copy_replaces_source_and_idempotent (ps maxD : Nat)
    (sp dp : String) (st : S3) (hps : 0 < ps)
    (hsd : strStarts sp dp = false) (hds : strStarts dp sp = false)
    (hnd : (st.map Prod.fst).Nodup)
    (hok : (copyS3Folder ps sp dp st 0 0 maxD).result = .ok ()) :
    (∀ k ∈ listKeys st sp,
      objGet (copyS3Folder ps sp dp st 0 0 maxD).store (jsReplace k sp dp)
        = objGet st k) ∧
    (copyS3Folder ps sp dp (copyS3Folder ps sp dp st 0 0 maxD).store 0 0 maxD).store
      = (copyS3Folder ps sp dp st 0 0 maxD).store := by
  have hcopies := copyS3Folder_copies ps sp dp hps hsd hds st 0 0 maxD hnd hok
  have hinv := copyS3Folder_inv ps sp dp hsd hds st 0 0 maxD
  constructor
  · intro k hk
    exact hcopies k (by simpa using hk)
  · refine copyS3Folder_id ps sp dp hsd hds _ 0 0 maxD ?_
    intro k hk
    have hkL : k ∈ listKeys st sp := by
      rw [hinv.1] at hk
      exact hk
    have h1 := hcopies k (by simpa using hkL)
    have h2 := hinv.2 k (mem_listKeys.mp hkL).2
    rw [h1, h2]

/-- C8 witness: copying two objects under `base/t` to `code/w` in a
single listing page. -/
theorem C8_copy_replaces_source_and_idempotent_witness :
    (∀ k ∈ listKeys [("base/t/a", "1"), ("base/t/b", "2")] "base/t",
      objGet (copyS3Folder 10 "base/t" "code/w"
          [("base/t/a", "1"), ("base/t/b", "2")] 0 0 10).store
          (jsReplace k "base/t" "code/w")
        = objGet [("base/t/a", "1"), ("base/t/b", "2")] k) ∧
    (copyS3Folder 10 "base/t" "code/w"
        (copyS3Folder 10 "base/t" "code/w"
          [("base/t/a", "1"), ("base/t/b", "2")] 0 0 10).store 0 0 10).store
      = (copyS3Folder 10 "base/t" "code/w"
          [("base/t/a", "1"), ("base/t/b", "2")] 0 0 10).store :=
  C8_copy_replaces_source_and_idempotent 10 10 "base/t" "code/w"
    [("base/t/a", "1"), ("base/t/b", "2")] (by decide) (by decide) (by decide)
    (by decide)
    (by rw [copyS3Folder_eq_last 10 "base/t" "code/w"
          [("base/t/a", "1"), ("base/t/b", "2")] 0 0 10
          (by decide) (by decide) (by decide)])

end Aws

/-! ## File tree construction: claim C10 -/

namespace JsMap

theorem objGet_objSet {α : Type} (m : List (String × α)) (k k' : String) (v : α) :
    objGet (objSet m k v) k' = if k = k' then some v else objGet m k' := by
  by_cases h : k = k'
  · subst h
    simp [objGet_objSet_self]
  · simp [h, objGet_objSet_ne m k k' v h]

theorem objGet_some_mem {α : Type} (m : List (String × α)) (k : String) (v : α)
    (h : objGet m k = some v) : (k, v) ∈ m := by
  induction m with
  | nil => simp [objGet] at h
  | cons kv rest ih =>
    obtain ⟨k0, v0⟩ := kv
    by_cases hk : k0 = k
    · subst hk
      have hv : v0 = v := by simpa [objGet] using h
      simp [hv]
    · simp only [objGet, if_neg hk] at h
      exact List.mem_cons_of_mem _ (ih h)

theorem objGet_append {α : Type} (a b : List (String × α)) (k : String) :
    objGet (a ++ b) k
      = match objGet a k with
        | some v => some v
        | none => objGet b k := by
  induction a with
  | nil => simp [objGet]
  | cons kv rest ih =>
    by_cases hk : kv.1 = k
    · simp [objGet, hk]
    · simpa [objGet, hk] using ih

theorem objSet_append_fresh {α : Type} (m : List (String × α)) (k : String) (v : α)
    (h : k ∉ m.map Prod.fst) : objSet m k v = m ++ [(k, v)] := by
  induction m with
  | nil => simp [objSet]
  | cons kv rest ih =>
    simp only [List.map_cons, List.mem_cons] at h
    push_neg at h
    simp [objSet, Ne.symm h.1, ih h.2]

theorem foldl_objSet_fresh {α : Type} (l m : List (String × α))
    (hm : ∀ kv ∈ l, kv.1 ∉ m.map Prod.fst) (hl : (l.map Prod.fst).Nodup) :
    l.foldl (fun acc kv => objSet acc kv.1 kv.2) m = m ++ l := by
  induction l generalizing m with
  | nil => simp
  | cons kv l ih =>
    simp only [List.map_cons, List.nodup_cons] at hl
    rw [List.foldl_cons, objSet_append_fresh m kv.1 kv.2 (hm kv (by simp)),
      ih (m ++ [(kv.1, kv.2)]) ?hfresh hl.2]
    · simp
    case hfresh =>
      intro kv' hkv'
      simp only [List.map_append, List.mem_append]
      push_neg
      refine ⟨fun hc => hm kv' (List.mem_cons_of_mem _ hkv') hc, ?_⟩
      simp only [List.map_cons, List.map_nil, List.mem_singleton]
      intro hc
      exact hl.1 (hc ▸ List.mem_map_of_mem Prod.fst hkv')

theorem objGet_foldl_objSet_prop {α : Type} (P : α → Prop)
    (l : List (String × α)) (m : List (String × α)) (k : String)
    (hl : ∀ kv ∈ l, kv.1 = k → P kv.2)
    (hm : ∀ v, objGet m k = some v → P v) :
    ∀ v, objGet (l.foldl (fun acc kv => objSet acc kv.1 kv.2) m) k = some v → P v := by
  induction l generalizing m with
  | nil => exact hm
  | cons kv l ih =>
    rw [List.foldl_cons]
    refine ih _ (fun kv' h' => hl kv' (List.mem_cons_of_mem _ h')) ?_
    intro v hv
    rw [objGet_objSet] at hv
    by_cases hk : kv.1 = k
    · rw [if_pos hk] at hv
      have hv2 : kv.2 = v := by simpa using hv
      exact hv2 ▸ hl kv (by simp) hk
    · rw [if_neg hk] at hv
      exact hm v hv

theorem objGet_foldl_isSome_mono {α : Type} (l m : List (String × α))
    (k : String) (h : ∃ v, objGet m k = some v) :
    ∃ v, objGet (l.foldl (fun acc kv => objSet acc kv.1 kv.2) m) k = some v := by
  induction l generalizing m with
  | nil => exact h
  | cons kv l ih =>
    rw [List.foldl_cons]
    refine ih _ ?_
    rw [objGet_objSet]
    by_cases hk : kv.1 = k
    · exact ⟨kv.2, by rw [if_pos hk]⟩
    · rw [if_neg hk]
      exact h

theorem objGet_foldl_isSome_of_mem {α : Type} (l m : List (String × α))
    (k : String) (v0 : α) (h : (k, v0) ∈ l) :
    ∃ v, objGet (l.foldl (fun acc kv => objSet acc kv.1 kv.2) m) k = some v := by
  induction l generalizing m with
  | nil => cases h
  | cons kv l ih =>
    rw [List.foldl_cons]
    rcases List.mem_cons.mp h with rfl | hmem
    · exact objGet_foldl_isSome_mono l _ k ⟨v0, objGet_objSet_self m k v0⟩
    · exact ih _ hmem

theorem objGet_map_key {α β : Type} (l : List β) (key : β → String) (g : β → α)
    (hnd : (l.map key).Nodup) (x : β) (hx : x ∈ l) :
    objGet (l.map (fun a => (key a, g a))) (key x) = some (g x) := by
  induction l with
  | nil => cases hx
  | cons y l ih =>
    simp only [List.map_cons, List.nodup_cons] at hnd
    rcases List.mem_cons.mp hx with rfl | hmem
    · simp [objGet]
    · have hne : key y ≠ key x := by
        intro hc
        exact hnd.1 (hc ▸ List.mem_map_of_mem key hmem)
      simp only [List.map_cons, objGet, if_neg hne]
      exact ih hnd.2 hmem

end JsMap

namespace FM

open JsMap

theorem joinSlash_cons_cons (g1 g2 : List Char) (gs : List (List Char)) :
    joinSlash (g1 :: g2 :: gs) = g1 ++ '/' :: joinSlash (g2 :: gs) := rfl

theorem slash_mem_joinSlash (l : List (List Char)) (h : 2 ≤ l.length) :
    '/' ∈ joinSlash l := by
  match l, h with
  | g1 :: g2 :: gs, _ =>
    rw [joinSlash_cons_cons]
    exact List.mem_append_right _ (List.mem_cons_self _ _)

theorem splitSlash_length_pos (l : List Char) : 1 ≤ (splitSlash l).length := by
  induction l with
  | nil => simp [splitSlash]
  | cons c cs ih =>
    simp only [splitSlash]
    cases h : splitSlash cs with
    | nil => simp
    | cons g gs =>
      by_cases hc : c = '/' <;> simp [hc]

theorem parentOf_ne_zero (q : String) (h : 3 ≤ segs q) : parentOf q ≠ "0" := by
  intro hc
  have hlen : 2 ≤ ((splitSlash q.data).dropLast).length := by
    rw [List.length_dropLast]
    simp only [segs] at h
    omega
  have hslash : '/' ∈ joinSlash ((splitSlash q.data).dropLast) :=
    slash_mem_joinSlash _ hlen
  have hdata : joinSlash ((splitSlash q.data).dropLast) = "0".data :=
    congrArg String.data hc
  rw [hdata] at hslash
  simp at hslash

theorem dirs_filter_sub (data : List RemoteFile) :
    ∀ x ∈ data.filter (fun x => x.type == RKind.dir), x ∈ data :=
  fun x hx => (List.mem_filter.mp hx).1

/-- The association-pair list the two `forEach` passes feed into the
cache, in insertion order. -/
theorem cacheOf_eq_pairs (data : List RemoteFile)
    (hnd : (data.map (fun x => x.path)).Nodup) :
    cacheOf data
      = ((data.filter (fun x => x.type == RKind.dir)).map
          (fun d => (d.path,
            Node.mk true d.name d.path
              (parentIdOf (data.filter (fun x => x.type == RKind.dir)) d.path)))) ++
        ((data.filter (fun x => x.type == RKind.file)).map
          (fun f => (f.path,
            Node.mk false f.name f.path
              (parentIdOf (data.filter (fun x => x.type == RKind.dir)) f.path)))) := by
  have hpairs :
      ((((data.filter (fun x => x.type == RKind.dir)).map
          (fun d => (d.path,
            Node.mk true d.name d.path
              (parentIdOf (data.filter (fun x => x.type == RKind.dir)) d.path)))) ++
        ((data.filter (fun x => x.type == RKind.file)).map
          (fun f => (f.path,
            Node.mk false f.name f.path
              (parentIdOf (data.filter (fun x => x.type == RKind.dir)) f.path))))).map
        Prod.fst).Nodup := by
    rw [List.map_append, List.map_map, List.map_map]
    have hd : (List.map (Prod.fst ∘ fun d => (d.path, Node.mk true d.name d.path
        (parentIdOf (data.filter (fun x => x.type == RKind.dir)) d.path)))
        (data.filter (fun x => x.type == RKind.dir)))
        = (data.filter (fun x => x.type == RKind.dir)).map (fun x => x.path) := by
      simp [Function.comp]
    have hf : (List.map (Prod.fst ∘ fun f => (f.path, Node.mk false f.name f.path
        (parentIdOf (data.filter (fun x => x.type == RKind.dir)) f.path)))
        (data.filter (fun x => x.type == RKind.file)))
        = (data.filter (fun x => x.type == RKind.file)).map (fun x => x.path) := by
      simp [Function.comp]
    rw [hd, hf, List.nodup_append]
    refine ⟨?_, ?_, ?_⟩
    · exact ((List.filter_sublist data).map (fun x => x.path)).nodup hnd
    · exact ((List.filter_sublist data).map (fun x => x.path)).nodup hnd
    · intro p hp hq
      rcases List.mem_map.mp hp with ⟨d, hd', rfl⟩
      rcases List.mem_map.mp hq with ⟨f, hf', hpf⟩
      have hdd := List.mem_filter.mp hd'
      have hff := List.mem_filter.mp hf'
      have : d = f :=
        List.inj_on_of_nodup_map hnd hdd.1 hff.1 hpf.symm
      rw [this] at hdd
      have h1 : f.type = RKind.dir := by simpa using hdd.2
      have h2 : f.type = RKind.file := by simpa using hff.2
      rw [h1] at h2
      cases h2
  rw [cacheOf]
  exact foldl_objSet_fresh _ [] (by simp) hpairs

theorem pushChild_mem_self (m : List (String × List String)) (pid cid : String) :
    cid ∈ (objGet (pushChild m pid cid) pid).getD [] := by
  unfold pushChild
  cases h : objGet m pid with
  | none => simp [objGet_objSet_self]
  | some l => simp [objGet_objSet_self]

theorem pushChild_mem_mono (m : List (String × List String))
    (pid cid q x : String) (h : x ∈ (objGet m q).getD []) :
    x ∈ (objGet (pushChild m pid cid) q).getD [] := by
  unfold pushChild
  cases hm : objGet m pid with
  | none =>
    rw [objGet_objSet]
    by_cases hq : pid = q
    · subst hq
      rw [hm] at h
      simp at h
    · rw [if_neg hq]
      exact h
  | some l =>
    rw [objGet_objSet]
    by_cases hq : pid = q
    · subst hq
      rw [hm] at h
      simp only [Option.getD_some] at h
      simp [h]
    · rw [if_neg hq]
      exact h

theorem link_cons (cache : List (String × Node)) (k0 : String) (v : Node)
    (rest : List (String × Node)) (acc : LinkSt) :
    link cache ((k0, v) :: rest) acc
      = match v.parentId with
        | some pid =>
          if pid = "0" then
            if v.isDir then
              link cache rest { acc with rootDirs := acc.rootDirs ++ [v.path] }
            else
              link cache rest { acc with rootFiles := acc.rootFiles ++ [v.path] }
          else
            match objGet cache pid with
            | some parent =>
              if parent.isDir then
                if v.isDir then
                  link cache rest
                    { acc with childDirs := pushChild acc.childDirs pid v.path }
                else
                  link cache rest
                    { acc with childFiles := pushChild acc.childFiles pid v.path }
              else .error ()
            | none => .error ()
        | none => .error () := rfl

theorem link_props (cache : List (String × Node)) :
    ∀ (entries : List (String × Node)) (acc : LinkSt),
    (∀ kv ∈ entries, goodNode cache kv.2) →
    ∃ st, link cache entries acc = .ok st ∧
      (∀ x, x ∈ acc.rootDirs → x ∈ st.rootDirs) ∧
      (∀ x, x ∈ acc.rootFiles → x ∈ st.rootFiles) ∧
      (∀ p x, x ∈ childDirsOf acc p → x ∈ childDirsOf st p) ∧
      (∀ p x, x ∈ childFilesOf acc p → x ∈ childFilesOf st p) ∧
      (∀ kv ∈ entries,
        (kv.2.parentId = some "0" →
          (kv.2.isDir = true → kv.2.path ∈ st.rootDirs) ∧
          (kv.2.isDir = false → kv.2.path ∈ st.rootFiles)) ∧
        (∀ p, kv.2.parentId = some p → p ≠ "0" →
          (kv.2.isDir = true → kv.2.path ∈ childDirsOf st p) ∧
          (kv.2.isDir = false → kv.2.path ∈ childFilesOf st p))) := by
  intro entries
  induction entries with
  | nil =>
    intro acc _
    exact ⟨acc, rfl, fun _ h => h, fun _ h => h, fun _ _ h => h, fun _ _ h => h,
      fun kv hkv => absurd hkv (by simp)⟩
  | cons kv0 rest ih =>
    intro acc hgood
    obtain ⟨k0, v⟩ := kv0
    have hgoodrest : ∀ kv ∈ rest, goodNode cache kv.2 :=
      fun kv h => hgood kv (List.mem_cons_of_mem _ h)
    rcases hgood (k0, v) (by simp) with hp0 | ⟨p, parent, hp, hne0, hpar, hdir⟩
    · by_cases hd : v.isDir = true
      · rcases ih { acc with rootDirs := acc.rootDirs ++ [v.path] } hgoodrest with
          ⟨st, heq, hm1, hm2, hm3, hm4, hrest⟩
        refine ⟨st, ?_, ?_, hm2, hm3, hm4, ?_⟩
        · rw [link_cons, hp0]
          simpa [hd] using heq
        · intro x hx
          exact hm1 x (List.mem_append_left _ hx)
        · intro kv hkv
          rcases List.mem_cons.mp hkv with rfl | hkvrest
          · refine ⟨fun _ => ⟨fun _ => ?_, fun hf => ?_⟩, ?_⟩
            · exact hm1 _ (List.mem_append_right _ (by simp))
            · rw [hd] at hf
              cases hf
            · intro p hp hne
              rw [hp0] at hp
              have : p = "0" := by simpa using hp.symm
              exact absurd this hne
          · exact hrest kv hkvrest
      · have hd' : v.isDir = false := by simpa using hd
        rcases ih { acc with rootFiles := acc.rootFiles ++ [v.path] } hgoodrest with
          ⟨st, heq, hm1, hm2, hm3, hm4, hrest⟩
        refine ⟨st, ?_, hm1, ?_, hm3, hm4, ?_⟩
        · rw [link_cons, hp0]
          simpa [hd'] using heq
        · intro x hx
          exact hm2 x (List.mem_append_left _ hx)
        · intro kv hkv
          rcases List.mem_cons.mp hkv with rfl | hkvrest
          · refine ⟨fun _ => ⟨fun ht => ?_, fun _ => ?_⟩, ?_⟩
            · rw [hd'] at ht
              cases ht
            · exact hm2 _ (List.mem_append_right _ (by simp))
            · intro p hp hne
              rw [hp0] at hp
              have : p = "0" := by simpa using hp.symm
              exact absurd this hne
          · exact hrest kv hkvrest
    · by_cases hd : v.isDir = true
      · rcases ih { acc with childDirs := pushChild acc.childDirs p v.path }
          hgoodrest with ⟨st, heq, hm1, hm2, hm3, hm4, hrest⟩
        refine ⟨st, ?_, hm1, hm2, ?_, hm4, ?_⟩
        · rw [link_cons, hp]
          simpa [hne0, hpar, hdir, hd] using heq
        · intro q x hx
          exact hm3 q x (pushChild_mem_mono acc.childDirs p v.path q x hx)
        · intro kv hkv
          rcases List.mem_cons.mp hkv with rfl | hkvrest
          · refine ⟨fun h0 => ?_, fun q hq hqne => ⟨fun _ => ?_, fun hf => ?_⟩⟩
            · rw [hp] at h0
              have : p = "0" := by simpa using h0
              exact absurd this hne0
            · have hqp : q = p := by
                rw [hp] at hq
                simpa using hq.symm
              subst hqp
              exact hm3 q v.path (pushChild_mem_self acc.childDirs q v.path)
            · rw [hd] at hf
              cases hf
          · exact hrest kv hkvrest
      · have hd' : v.isDir = false := by simpa using hd
        rcases ih { acc with childFiles := pushChild acc.childFiles p v.path }
          hgoodrest with ⟨st, heq, hm1, hm2, hm3, hm4, hrest⟩
        refine ⟨st, ?_, hm1, hm2, hm3, ?_, ?_⟩
        · rw [link_cons, hp]
          simpa [hne0, hpar, hdir, hd'] using heq
        · intro q x hx
          exact hm4 q x (pushChild_mem_mono acc.childFiles p v.path q x hx)
        · intro kv hkv
          rcases List.mem_cons.mp hkv with rfl | hkvrest
          · refine ⟨fun h0 => ?_, fun q hq hqne => ⟨fun ht => ?_, fun _ => ?_⟩⟩
            · rw [hp] at h0
              have : p = "0" := by simpa using h0
              exact absurd this hne0
            · rw [hd'] at ht
              cases ht
            · have hqp : q = p := by
                rw [hp] at hq
                simpa using hq.symm
              subst hqp
              exact hm4 q v.path (pushChild_mem_self acc.childFiles q v.path)
          · exact hrest kv hkvrest

theorem link_err_of_none (cache : List (String × Node)) :
    ∀ (entries : List (String × Node)) (acc : LinkSt),
    (∃ kv ∈ entries, kv.2.parentId = none) →
    link cache entries acc = .error () := by
  intro entries
  induction entries with
  | nil =>
    intro acc h
    rcases h with ⟨kv, hkv, _⟩
    cases hkv
  | cons kv0 rest ih =>
    intro acc h
    obtain ⟨k0, v⟩ := kv0
    cases hp : v.parentId with
    | none => rw [link_cons, hp]
    | some p =>
      have hrest : ∃ kv ∈ rest, kv.2.parentId = none := by
        rcases h with ⟨kv, hkv, hnone⟩
        rcases List.mem_cons.mp hkv with rfl | hmem
        · rw [hp] at hnone
          cases hnone
        · exact ⟨kv, hmem, hnone⟩
      by_cases hne0 : p = "0"
      · subst hne0
        rw [link_cons, hp]
        by_cases hd : v.isDir = true <;> simp [hd, ih _ hrest]
      · rw [link_cons, hp]
        cases hpar : objGet cache p with
        | none => simp [hne0, hpar]
        | some parent =>
          by_cases hdir : parent.isDir = true
          · by_cases hd : v.isDir = true <;>
              simp [hne0, hpar, hdir, hd, ih _ hrest]
          · have hdir' : parent.isDir = false := by simpa using hdir
            simp [hne0, hpar, hdir']

theorem buildFileTree_unfold (data : List RemoteFile) :
    buildFileTree data
      = (link (cacheOf data) (cacheOf data) ⟨[], [], [], []⟩).map
          (fun l => (cacheOf data, l)) := rfl

theorem cacheOf_unfold (data : List RemoteFile) :
    cacheOf data
      = (((data.filter (fun x => x.type == RKind.dir)).map
          (fun d => (d.path,
            Node.mk true d.name d.path
              (parentIdOf (data.filter (fun x => x.type == RKind.dir)) d.path)))) ++
        ((data.filter (fun x => x.type == RKind.file)).map
          (fun f => (f.path,
            Node.mk false f.name f.path
              (parentIdOf (data.filter (fun x => x.type == RKind.dir)) f.path))))).foldl
        (fun m kv => objSet m kv.1 kv.2) [] := rfl

theorem parentIdOf_eq_none (dirs : List RemoteFile) (q : String)
    (hsegs : 3 ≤ segs q)
    (hnopar : ∀ d ∈ dirs, d.path ≠ parentOf q) :
    parentIdOf dirs q = none := by
  rw [parentIdOf, if_neg (by omega)]
  have hfind : dirs.find? (fun x => x.path == parentOf q) = none := by
    rw [List.find?_eq_none]
    intro d hd
    simp [hnopar d hd]
  rw [hfind]
  rfl

theorem buildFileTree_err (data : List RemoteFile) (e : RemoteFile)
    (hmem : e ∈ data) (hsegs : 3 ≤ segs e.path)
    (hnopar : ∀ d ∈ data, d.type = RKind.dir → d.path ≠ parentOf e.path) :
    buildFileTree data = .error () := by
  have hpid : parentIdOf (data.filter (fun x => x.type == RKind.dir))
      e.path = none := by
    refine parentIdOf_eq_none _ _ hsegs ?_
    intro d hd
    have hdd := List.mem_filter.mp hd
    exact hnopar d hdd.1 (by simpa using hdd.2)
  have hprop : ∀ v, objGet (cacheOf data) e.path = some v → v.parentId = none := by
    rw [cacheOf_unfold]
    refine objGet_foldl_objSet_prop _ _ [] e.path ?_ (by simp [objGet])
    intro kv hkv hk
    rcases List.mem_append.mp hkv with hkv | hkv
    · rcases List.mem_map.mp hkv with ⟨x, hx, rfl⟩
      simp only at hk ⊢
      rw [hk]
      exact hpid
    · rcases List.mem_map.mp hkv with ⟨x, hx, rfl⟩
      simp only at hk ⊢
      rw [hk]
      exact hpid
  have hsome : ∃ v, objGet (cacheOf data) e.path = some v := by
    rw [cacheOf_unfold]
    cases he : e.type with
    | dir =>
      refine objGet_foldl_isSome_of_mem _ [] e.path
        (Node.mk true e.name e.path
          (parentIdOf (data.filter (fun x => x.type == RKind.dir)) e.path)) ?_
      refine List.mem_append_left _ ?_
      exact List.mem_map.mpr ⟨e, List.mem_filter.mpr ⟨hmem, by simp [he]⟩, rfl⟩
    | file =>
      refine objGet_foldl_isSome_of_mem _ [] e.path
        (Node.mk false e.name e.path
          (parentIdOf (data.filter (fun x => x.type == RKind.dir)) e.path)) ?_
      refine List.mem_append_right _ ?_
      exact List.mem_map.mpr ⟨e, List.mem_filter.mpr ⟨hmem, by simp [he]⟩, rfl⟩
  rcases hsome with ⟨v, hv⟩
  have hvnone : v.parentId = none := hprop v hv
  have hlink : link (cacheOf data) (cacheOf data) ⟨[], [], [], []⟩ = .error () :=
    link_err_of_none (cacheOf data) (cacheOf data) _
      ⟨(e.path, v), objGet_some_mem _ _ _ hv, hvnone⟩
  rw [buildFileTree_unfold, hlink]
  rfl

theorem parentIdOf_two (dirs : List RemoteFile) (q : String) (h : segs q = 2) :
    parentIdOf dirs q = some "0" := by
  rw [parentIdOf, if_pos h]

theorem parentIdOf_three (dirs : List RemoteFile) (q : String)
    (hsegs : 3 ≤ segs q) (d : RemoteFile) (hd : d ∈ dirs)
    (hdp : d.path = parentOf q) :
    parentIdOf dirs q = some (parentOf q) := by
  rw [parentIdOf, if_neg (by omega)]
  cases hf : dirs.find? (fun x => x.path == parentOf q) with
  | none =>
    exfalso
    exact absurd (by simp [hdp] : (fun x => x.path == parentOf q) d = true)
      (by simpa using List.find?_eq_none.mp hf d hd)
  | some y =>
    have hy : y.path = parentOf q := by simpa using List.find?_some hf
    simp [hy]

theorem dirs_paths_nodup (data : List RemoteFile)
    (h3 : (data.map (fun x => x.path)).Nodup) :
    ((data.filter (fun x => x.type == RKind.dir)).map (fun x => x.path)).Nodup :=
  ((List.filter_sublist data).map (fun x => x.path)).nodup h3

theorem cache_objGet_dir (data : List RemoteFile)
    (h3 : (data.map (fun x => x.path)).Nodup) (d : RemoteFile)
    (hd : d ∈ data.filter (fun x => x.type == RKind.dir)) :
    objGet (cacheOf data) d.path
      = some (Node.mk true d.name d.path
          (parentIdOf (data.filter (fun x => x.type == RKind.dir)) d.path)) := by
  rw [cacheOf_eq_pairs data h3, objGet_append]
  rw [objGet_map_key (data.filter (fun x => x.type == RKind.dir))
    (fun x => x.path)
    (fun x => Node.mk true x.name x.path
      (parentIdOf (data.filter (fun x => x.type == RKind.dir)) x.path))
    (dirs_paths_nodup data h3) d hd]

/-- C10 counterexample: the input holding the single entry
`{type: file, name: "b.txt", path: "b.txt"}` satisfies the claimed
precondition vacuously (no entry has three or more segments), yet
`buildFileTree` still throws — the one-segment path falls into the
`dirs.find` branch, gets `parentId` `undefined`, and the linking pass
dereferences it. -/
theorem C10_counterexample :
    buildFileTree [⟨RKind.file, "b.txt", "b.txt"⟩] = .error () ∧
    (∀ x ∈ [(⟨RKind.file, "b.txt", "b.txt"⟩ : RemoteFile)],
      3 ≤ segs x.path →
        ∃ d ∈ [(⟨RKind.file, "b.txt", "b.txt"⟩ : RemoteFile)],
          d.type = RKind.dir ∧ d.path = parentOf x.path) := by
  constructor
  · decide
  · decide

/-- C10 amended: `buildFileTree` is total only under the precondition
that every entry's path has at least two slash-separated segments and
every entry whose path has three or more segments has a directory entry
in the same input whose path equals its path with the last segment
removed — an entry violating the parent condition makes the linking pass
dereference an undefined parent and throw; under the precondition (with
pairwise-distinct paths, so that the path-keyed cache holds every entry),
`buildFileTree` completes without error, attaches every two-segment
entry to the root, and attaches every deeper entry to its parent
directory. -/
theorem C10_buildFileTree_total_iff_parents_present
    (bad data : List RemoteFile) (e : RemoteFile)
    (hbmem : e ∈ bad) (hbsegs : 3 ≤ segs e.path)
    (hbpar : ∀ d ∈ bad, d.type = RKind.dir → d.path ≠ parentOf e.path)
    (h1 : ∀ x ∈ data, 2 ≤ segs x.path)
    (h2 : ∀ x ∈ data, 3 ≤ segs x.path →
      ∃ d ∈ data, d.type = RKind.dir ∧ d.path = parentOf x.path)
    (h3 : (data.map (fun x => x.path)).Nodup) :
    buildFileTree bad = .error () ∧
    ∃ st, buildFileTree data = .ok (cacheOf data, st) ∧
      ∀ x ∈ data,
        (segs x.path = 2 →
          (x.type = RKind.dir → x.path ∈ st.rootDirs) ∧
          (x.type = RKind.file → x.path ∈ st.rootFiles)) ∧
        (3 ≤ segs x.path →
          (x.type = RKind.dir → x.path ∈ childDirsOf st (parentOf x.path)) ∧
          (x.type = RKind.file → x.path ∈ childFilesOf st (parentOf x.path))) := by
  refine ⟨buildFileTree_err bad e hbmem hbsegs hbpar, ?_⟩
  have hgoodpid : ∀ x ∈ data,
      parentIdOf (data.filter (fun y => y.type == RKind.dir)) x.path = some "0" ∨
      (parentIdOf (data.filter (fun y => y.type == RKind.dir)) x.path
          = some (parentOf x.path) ∧
        parentOf x.path ≠ "0" ∧
        ∃ d ∈ data.filter (fun y => y.type == RKind.dir),
          d.path = parentOf x.path) := by
    intro x hx
    by_cases hseg2 : segs x.path = 2
    · exact Or.inl (parentIdOf_two _ _ hseg2)
    · have hseg3 : 3 ≤ segs x.path := by
        have := h1 x hx
        omega
      rcases h2 x hx hseg3 with ⟨d, hdmem, hdtype, hdp⟩
      have hddirs : d ∈ data.filter (fun y => y.type == RKind.dir) :=
        List.mem_filter.mpr ⟨hdmem, by simp [hdtype]⟩
      exact Or.inr ⟨parentIdOf_three _ _ hseg3 d hddirs hdp,
        parentOf_ne_zero _ hseg3, d, hddirs, hdp⟩
  have hgood : ∀ kv ∈ cacheOf data, goodNode (cacheOf data) kv.2 := by
    intro kv hkv
    rw [cacheOf_eq_pairs data h3] at hkv
    have hcase : ∃ x ∈ data, kv.2.path = x.path ∧
        kv.2.parentId
          = parentIdOf (data.filter (fun y => y.type == RKind.dir)) x.path := by
      rcases List.mem_append.mp hkv with hkv | hkv
      · rcases List.mem_map.mp hkv with ⟨x, hx, rfl⟩
        exact ⟨x, (List.mem_filter.mp hx).1, rfl, rfl⟩
      · rcases List.mem_map.mp hkv with ⟨x, hx, rfl⟩
        exact ⟨x, (List.mem_filter.mp hx).1, rfl, rfl⟩
    rcases hcase with ⟨x, hxmem, hxpath, hxpid⟩
    rcases hgoodpid x hxmem with hzero | ⟨hpar, hne0, d, hddirs, hdp⟩
    · exact Or.inl (by rw [hxpid, hzero])
    · refine Or.inr ⟨parentOf x.path,
        Node.mk true d.name d.path
          (parentIdOf (data.filter (fun y => y.type == RKind.dir)) d.path),
        by rw [hxpid, hpar], hne0, ?_, rfl⟩
      rw [← hdp]
      exact cache_objGet_dir data h3 d hddirs
  rcases link_props (cacheOf data) (cacheOf data) ⟨[], [], [], []⟩ hgood with
    ⟨st, heq, _, _, _, _, hattach⟩
  refine ⟨st, by rw [buildFileTree_unfold, heq]; rfl, ?_⟩
  intro x hx
  cases hxt : x.type with
  | dir =>
    have hpairmem : (x.path,
        Node.mk true x.name x.path
          (parentIdOf (data.filter (fun y => y.type == RKind.dir)) x.path))
        ∈ cacheOf data := by
      rw [cacheOf_eq_pairs data h3]
      refine List.mem_append_left _ ?_
      exact List.mem_map.mpr ⟨x, List.mem_filter.mpr ⟨hx, by simp [hxt]⟩, rfl⟩
    have hatt := hattach _ hpairmem
    constructor
    · intro hseg2
      refine ⟨fun _ => ?_, fun hc => by cases hc⟩
      exact (hatt.1 (parentIdOf_two _ _ hseg2)).1 rfl
    · intro hseg3
      refine ⟨fun _ => ?_, fun hc => by cases hc⟩
      rcases h2 x hx hseg3 with ⟨d, hdmem, hdtype, hdp⟩
      have hddirs : d ∈ data.filter (fun y => y.type == RKind.dir) :=
        List.mem_filter.mpr ⟨hdmem, by simp [hdtype]⟩
      have hpar := parentIdOf_three _ x.path hseg3 d hddirs hdp
      have hne0 := parentOf_ne_zero x.path hseg3
      exact (hatt.2 (parentOf x.path) hpar hne0).1 rfl
  | file =>
    have hpairmem : (x.path,
        Node.mk false x.name x.path
          (parentIdOf (data.filter (fun y => y.type == RKind.dir)) x.path))
        ∈ cacheOf data := by
      rw [cacheOf_eq_pairs data h3]
      refine List.mem_append_right _ ?_
      exact List.mem_map.mpr ⟨x, List.mem_filter.mpr ⟨hx, by simp [hxt]⟩, rfl⟩
    have hatt := hattach _ hpairmem
    constructor
    · intro hseg2
      refine ⟨fun hc => absurd hc (by decide), fun _ => ?_⟩
      exact (hatt.1 (parentIdOf_two _ _ hseg2)).2 rfl
    · intro hseg3
      refine ⟨fun hc => absurd hc (by decide), fun _ => ?_⟩
      rcases h2 x hx hseg3 with ⟨d, hdmem, hdtype, hdp⟩
      have hddirs : d ∈ data.filter (fun y => y.type == RKind.dir) :=
        List.mem_filter.mpr ⟨hdmem, by simp [hdtype]⟩
      have hpar := parentIdOf_three _ x.path hseg3 d hddirs hdp
      have hne0 := parentOf_ne_zero x.path hseg3
      exact (hatt.2 (parentOf x.path) hpar hne0).2 rfl

/-- C10 witness: a bad input (one entry `/a/b/x.txt` with no `/a/b`
directory) that throws, and a good input `{/a, /a/x.txt, /b.txt}` that
links completely. -/
theorem C10_buildFileTree_total_iff_parents_present_witness :
    buildFileTree [⟨RKind.file, "x", "/a/b/x.txt"⟩] = .error () ∧
    ∃ st, buildFileTree
        [⟨RKind.dir, "a", "/a"⟩, ⟨RKind.file, "x.txt", "/a/x.txt"⟩,
         ⟨RKind.file, "b.txt", "/b.txt"⟩]
        = .ok (cacheOf
            [⟨RKind.dir, "a", "/a"⟩, ⟨RKind.file, "x.txt", "/a/x.txt"⟩,
             ⟨RKind.file, "b.txt", "/b.txt"⟩], st) ∧
      ∀ x ∈ [(⟨RKind.dir, "a", "/a"⟩ : RemoteFile),
             ⟨RKind.file, "x.txt", "/a/x.txt"⟩, ⟨RKind.file, "b.txt", "/b.txt"⟩],
        (segs x.path = 2 →
          (x.type = RKind.dir → x.path ∈ st.rootDirs) ∧
          (x.type = RKind.file → x.path ∈ st.rootFiles)) ∧
        (3 ≤ segs x.path →
          (x.type = RKind.dir → x.path ∈ childDirsOf st (parentOf x.path)) ∧
          (x.type = RKind.file → x.path ∈ childFilesOf st (parentOf x.path))) :=
  C10_buildFileTree_total_iff_parents_present
    [⟨RKind.file, "x", "/a/b/x.txt"⟩]
    [⟨RKind.dir, "a", "/a"⟩, ⟨RKind.file, "x.txt", "/a/x.txt"⟩,
     ⟨RKind.file, "b.txt", "/b.txt"⟩]
    ⟨RKind.file, "x", "/a/b/x.txt"⟩
    (by decide) (by decide) (by decide) (by decide) (by decide) (by decide)

end FM
